import Mathlib

/-!
Shallow embedding of the evidence-grounding core of the repository
(`agentos-docker/shared/evidence.py` and `agentos-docker/agents/revisor.py`,
plus `_apply_customer_constraints` of `agentos-docker/agents/content_analyzer.py`),
together with theorems settling the frozen claims about it.

Strings are modelled by Lean `String` (lists of characters).  Python string
primitives used by the code (`str.strip`, `str.startswith`, slicing,
`str.lower`, `in`, `re.sub` with a `\b`-delimited escaped literal and
`re.IGNORECASE`) are given explicit executable models on `List Char`; the
case and word-character model is ASCII, matching every string the pipeline
manipulates.  The MD5 hex digest used for evidence ids (`hashlib.md5`, a
Python standard-library collaborator external to this repository) is
abstracted as an arbitrary function `h' : String → String`; every theorem
about ids holds for an arbitrary such function, and concrete witnesses
instantiate it.
-/

/-- ASCII word character, the model of Python's regex class `\w` as used by
`re.sub(rf'\b{re.escape(old)}\b', ...)` in `CustomerConfig.apply_terminology`. -/
def wordCharB (c : Char) : Bool :=
  decide ((97 ≤ c.toNat ∧ c.toNat ≤ 122) ∨ (65 ≤ c.toNat ∧ c.toNat ≤ 90)
    ∨ (48 ≤ c.toNat ∧ c.toNat ≤ 57) ∨ c.toNat = 95)

/-- ASCII lower-casing of one character, the model of the comparison performed
by `re.IGNORECASE` (and of `str.lower`) on the ASCII strings of the pipeline. -/
def lowerCh (c : Char) : Char :=
  if 65 ≤ c.toNat ∧ c.toNat ≤ 90 then Char.ofNat (c.toNat + 32) else c

/-- Python whitespace as stripped by `str.strip()`. -/
def isSpaceCh (c : Char) : Bool :=
  decide (c = ' ' ∨ c = '\t' ∨ c = '\n' ∨ c = '\r' ∨ c = '\x0b' ∨ c = '\x0c')

/-- `str.strip()` on character lists: drop whitespace from both ends. -/
def stripChars (l : List Char) : List Char :=
  ((l.dropWhile isSpaceCh).reverse.dropWhile isSpaceCh).reverse

/-- `str.startswith(p)` on character lists. -/
def prefixB : List Char → List Char → Bool
  | [], _ => true
  | _ :: _, [] => false
  | p :: ps, c :: cs => (p == c) && prefixB ps cs

/-- Python's substring test `needle in hay` on character lists. -/
def substrB : List Char → List Char → Bool
  | n, [] => prefixB n []
  | n, c :: cs => prefixB n (c :: cs) || substrB n cs

/-- `str.strip()` on strings. -/
def stripS (s : String) : String := ⟨stripChars s.data⟩

/-- Python slicing `s[n:]` on strings. -/
def dropS (s : String) (n : Nat) : String := ⟨s.data.drop n⟩

/-- Python slicing `s[:n]` on strings. -/
def takeS (s : String) (n : Nat) : String := ⟨s.data.take n⟩

/-- `str.startswith` on strings. -/
def startsS (p s : String) : Bool := prefixB p.data s.data

/-- `str.lower()` on strings (ASCII model). -/
def lowerS (s : String) : String := ⟨s.data.map lowerCh⟩

/-- The word-character status of an optional character; the absent character
(start or end of the text) counts as a non-word position for `\b`. -/
def isWordO : Option Char → Bool
  | some c => wordCharB c
  | none => false

/-- The zero-width word-boundary assertion `\b` of the regex engine: it holds
between a word character and a non-word character (the ends of the text count
as non-word). `prevW` is the word-character status of the preceding character. -/
def bdry (prevW : Bool) (next : Option Char) : Bool := prevW != isWordO next

/-- Case-insensitive literal match of the escaped pattern against a prefix of
the text, the model of matching `re.escape(old)` under `re.IGNORECASE`. -/
def matchCI : List Char → List Char → Bool
  | [], _ => true
  | _ :: _, [] => false
  | a :: as, b :: bs => (lowerCh a == lowerCh b) && matchCI as bs

theorem dropWhile_length_le {α : Type} (p : α → Bool) (l : List α) :
    (l.dropWhile p).length ≤ l.length := by
  induction l with
  | nil => simp [List.dropWhile]
  | cons a as ih =>
    simp only [List.dropWhile]
    split
    · exact Nat.le_succ_of_le ih
    · exact Nat.le_refl _

/-- The scan of `re.sub(rf'\b{re.escape(old)}\b', rep, text, flags=re.IGNORECASE)`
for a replacement string `rep` containing no backslash: left to right, at
each position try the word boundary, the case-insensitive literal `old`, and
the closing word boundary; on a match emit `rep` and resume after the matched
characters (after the copied character for the zero-width pattern obtained
from an empty `old`), otherwise copy one character.  A backslash-free
replacement is inserted by `re.sub` exactly as written; replacement strings
containing backslashes are instead processed by `re.sub` as templates (escape
sequences and group references such as `\g<0>`) and are outside this model —
statements about the substitution therefore carry a backslash-freedom
hypothesis whenever template expansion could change the result. -/
def reSubAux (old rep : List Char) (prevW : Bool) : List Char → List Char
  | [] => if old.isEmpty && bdry prevW none then rep else []
  | c :: cs =>
    if old.isEmpty then
      if bdry prevW (some c) then rep ++ c :: reSubAux old rep (wordCharB c) cs
      else c :: reSubAux old rep (wordCharB c) cs
    else
      if bdry prevW (some c) && matchCI old (c :: cs)
          && bdry (isWordO (((c :: cs).take old.length).getLast?))
              (((c :: cs).drop old.length).head?) then
        rep ++ reSubAux old rep (isWordO (((c :: cs).take old.length).getLast?))
          ((c :: cs).drop old.length)
      else c :: reSubAux old rep (wordCharB c) cs
  termination_by s => s.length
  decreasing_by
    all_goals simp +arith [List.length_drop]
    all_goals
      cases old with
      | nil => simp_all
      | cons o os => simp +arith

/-- One whole-word case-insensitive substitution on strings, the model of one
`re.sub` call inside `CustomerConfig.apply_terminology` for a backslash-free
replacement string (see `reSubAux`). -/
def reSubWordCI (old rep s : String) : String := ⟨reSubAux old.data rep.data false s.data⟩

/-- The maximal word-character runs of a text, in order.  This is the notion of
"word" relevant to the `\b`-delimited matching performed by the terminology
substitution. -/
def wordRuns (l : List Char) : List (List Char) :=
  match l with
  | [] => []
  | c :: cs =>
    if wordCharB c then (c :: cs.takeWhile wordCharB) :: wordRuns (cs.dropWhile wordCharB)
    else wordRuns cs
  termination_by l.length
  decreasing_by
    · have := dropWhile_length_le wordCharB cs
      simp +arith
      omega
    · simp

/-- Python `s.split(sep)` for a one-character separator: every occurrence
separates, empty pieces are kept, the empty text yields one empty piece. -/
def splitNL : List Char → List (List Char)
  | [] => [[]]
  | c :: cs =>
    if c = '\n' then [] :: splitNL cs
    else
      match splitNL cs with
      | [] => [[c]]
      | l :: ls => (c :: l) :: ls

/-- Joining lines with a newline separator (used to build concrete raw texts;
inverse of `splitNL` on newline-free lines). -/
def joinNL : List (List Char) → List Char
  | [] => []
  | [l] => l
  | l :: l2 :: ls => l ++ '\n' :: joinNL (l2 :: ls)

/-- Association-list lookup, the model of `dict.get` /`dict.__getitem__`
on the id-keyed evidence dictionary. -/
def lookupL {α : Type} : List (String × α) → String → Option α
  | [], _ => none
  | (k, v) :: r, e => if k = e then some v else lookupL r e

/-- Association-list store `d[k] = v` with Python dict semantics: an existing
key keeps its position and gets the new value, a new key is appended. -/
def upsert {α : Type} : List (String × α) → String → α → List (String × α)
  | [], k, v => [(k, v)]
  | (k', v') :: rest, k, v =>
    if k' = k then (k, v) :: rest else (k', v') :: upsert rest k v

/-- The deterministic evidence id `EVID-` + `md5(f"{page_id}:{quote[:100]}").hexdigest()[:8]`,
with the MD5 hex digest abstracted as `h'`. -/
def genId (h' : String → String) (page_id quote : String) : String :=
  "EVID-" ++ takeS (h' (page_id ++ ":" ++ takeS quote 100)) 8

/-- `shared/evidence.py` `EvidenceItem`: one quotable unit of source text.
The extraction timestamp (`datetime.now()`) is modelled as an uninterpreted
natural number; nothing in the modelled operations reads it. -/
structure EvidenceItem where
  id : String
  page_title : String
  page_id : String
  page_url : String
  block_path : List String
  quote : String
  text : String
  block_type : String
  extracted_at : Nat
  deriving DecidableEq, Repr

/-- `EvidenceItem.__init__`: build an item from field data; when no id is given
and the quote is non-empty, the deterministic id is generated from
`page_id` and the first 100 characters of the quote. -/
def mkEvidenceItem (h' : String → String) (id page_title page_id page_url : String)
    (block_path : List String) (quote text block_type : String)
    (extracted_at : Nat) : EvidenceItem :=
  let it : EvidenceItem :=
    ⟨id, page_title, page_id, page_url, block_path, quote, text, block_type, extracted_at⟩
  if id = "" ∧ quote ≠ "" then { it with id := genId h' page_id quote } else it

/-- `shared/evidence.py` `EvidenceCollection`: the id-keyed dictionary of
evidence (modelled as an insertion-ordered association list with unique keys,
i.e. Python dict semantics). -/
structure EvidenceCollection where
  items : List (String × EvidenceItem)
  source_url : String
  source_title : String
  extracted_at : Nat
  deriving DecidableEq, Repr

/-- `EvidenceCollection.add`: generate the item's id if unset, then store the
item under its id (overwriting any earlier item with the same id). -/
def EvidenceCollection.add (h' : String → String) (c : EvidenceCollection)
    (item : EvidenceItem) : EvidenceCollection :=
  let item :=
    if item.id = "" then { item with id := genId h' item.page_id item.quote } else item
  { c with items := upsert c.items item.id item }

/-- `EvidenceCollection.get`: lookup by id. -/
def EvidenceCollection.get (c : EvidenceCollection) (evidence_id : String) :
    Option EvidenceItem :=
  lookupL c.items evidence_id

/-- `shared/evidence.py` `GroundedBullet`: one claim with its evidence ids. -/
structure GroundedBullet where
  text : String
  evidence_ids : List String
  deriving DecidableEq, Repr

/-- `GroundedBullet.is_grounded`: at least one evidence reference. -/
def GroundedBullet.is_grounded (b : GroundedBullet) : Bool :=
  decide (0 < b.evidence_ids.length)

/-- `shared/evidence.py` `GroundedSection`: one named part of the report. -/
structure GroundedSection where
  name : String
  description : String
  bullets : List GroundedBullet
  evidence_ids : List String
  open_questions : List String
  has_sufficient_evidence : Bool
  deriving DecidableEq, Repr

/-- `GroundedSection.add_open_question`: append the question and clear the
sufficiency flag. -/
def GroundedSection.add_open_question (s : GroundedSection) (q : String) :
    GroundedSection :=
  { s with open_questions := s.open_questions ++ [q], has_sufficient_evidence := false }

/-- `GroundedSection.validate_grounding`: the texts of bullets with no
evidence reference, in order. -/
def GroundedSection.validate_grounding (s : GroundedSection) : List String :=
  (s.bullets.filter (fun b => !b.is_grounded)).map (·.text)

/-- `shared/evidence.py` `CustomerConfig`.  `slot_definitions` (free-form
`Dict[str, Any]` slot metadata) and `emphasis_weights` (floating-point hints)
are omitted: no modelled operation reads them.  The slide-budget dictionary is
modelled as an association list of natural-number entries with the same
defaulting `get`s as the source. -/
structure CustomerConfig where
  name : String
  must_include : List String
  terminology_map : List (String × String)
  slide_budget : List (String × Nat)
  input_pages : List String
  deriving DecidableEq, Repr

/-- `CustomerConfig.apply_terminology`: fold the whole-word case-insensitive
substitution over the terminology mapping in insertion order. -/
def CustomerConfig.apply_terminology (cfg : CustomerConfig) (text : String) : String :=
  cfg.terminology_map.foldl (fun result p => reSubWordCI p.1 p.2 result) text

/-- `CustomerConfig.validate_sections`: the must-include concepts that appear
in no section name (case-insensitive substring containment), in order. -/
def CustomerConfig.validate_sections (cfg : CustomerConfig)
    (sections : List String) : List String :=
  let sections_lower := sections.map lowerS
  cfg.must_include.filter
    (fun concept => !sections_lower.any (fun s => substrB (lowerS concept).data s.data))

/-- `CustomerConfig.get_max_slides`. -/
def CustomerConfig.get_max_slides (cfg : CustomerConfig) : Nat :=
  (lookupL cfg.slide_budget "max").getD 40

/-- `CustomerConfig.get_min_slides`. -/
def CustomerConfig.get_min_slides (cfg : CustomerConfig) : Nat :=
  (lookupL cfg.slide_budget "min").getD 8

/-- `CustomerConfig.get_per_section_max`. -/
def CustomerConfig.get_per_section_max (cfg : CustomerConfig) : Nat :=
  (lookupL cfg.slide_budget "per_section_max").getD 6

/-- One step of `extract_evidence_from_content`'s line loop: strip the line,
skip it when blank, classify it (updating the heading path for headings), skip
texts shorter than 5 characters, otherwise add a new evidence item carrying
the current heading path. -/
def extract_step (h' : String → String) (page_title page_id page_url : String)
    (st : List String × EvidenceCollection) (raw : String) :
    List String × EvidenceCollection :=
  let line := stripS raw
  if line = "" then st
  else
    let current_path := st.1
    let classified : List String × String × String :=
      if startsS "# " line then
        let t := stripS (dropS line 2); ([t], "heading", t)
      else if startsS "## " line then
        let t := stripS (dropS line 3); (current_path.take 1 ++ [t], "heading", t)
      else if startsS "### " line then
        let t := stripS (dropS line 4); (current_path.take 2 ++ [t], "heading", t)
      else if startsS "- " line || startsS "* " line then
        (current_path, "bullet", stripS (dropS line 2))
      else if (match line.data with
               | c :: d :: e :: _ => decide ('1' ≤ c ∧ c ≤ '9') && (d == '.') && (e == ' ')
               | _ => false) then
        (current_path, "numbered", stripS (dropS line 3))
      else if startsS "```" line then
        (current_path, "code", line)
      else if startsS ">" line then
        (current_path, "quote", stripS (dropS line 1))
      else
        (current_path, "paragraph", line)
    let newPath := classified.1
    let block_type := classified.2.1
    let text := classified.2.2
    if text.data.length < 5 then (newPath, st.2)
    else
      let item := mkEvidenceItem h' "" page_title page_id page_url newPath text text
        block_type 0
      (newPath, EvidenceCollection.add h' st.2 item)

/-- `shared/evidence.py` `extract_evidence_from_content`: split the raw
content into lines and fold the extraction step over them, starting from an
empty heading path and an empty collection. -/
def extract_evidence_from_content (h' : String → String) (content : String)
    (page_title page_id page_url : String) : EvidenceCollection :=
  (((splitNL content.data).map (fun l => (⟨l⟩ : String))).foldl
    (extract_step h' page_title page_id page_url)
    ([], ⟨[], page_url, page_title, 0⟩)).2

/-- The per-report result of `validate_grounded_report` (the Python result
dictionary, with the ungrounded-bullet records as (section name, bullet text)
pairs). -/
structure ValidationResults where
  valid : Bool
  total_sections : Nat
  total_bullets : Nat
  grounded_bullets : Nat
  ungrounded_bullets : List (String × String)
  sections_with_questions : Nat
  errors : List String
  deriving DecidableEq, Repr

/-- The loop body of `validate_grounded_report`: account one section,
recording its ungrounded bullets and flipping `valid` when it has any. -/
def validate_step (r : ValidationResults) (sec : GroundedSection) : ValidationResults :=
  let ungrounded := sec.validate_grounding
  let r := { r with
    total_bullets := r.total_bullets + sec.bullets.length,
    grounded_bullets := r.grounded_bullets + (sec.bullets.length - ungrounded.length) }
  let r :=
    if ungrounded.isEmpty then r
    else { r with
      valid := false,
      ungrounded_bullets := r.ungrounded_bullets ++ ungrounded.map (fun b => (sec.name, b)),
      errors := r.errors ++ ["Section '" ++ sec.name ++ "' has "
        ++ toString ungrounded.length ++ " ungrounded bullets"] }
  if sec.open_questions.isEmpty then r
  else { r with sections_with_questions := r.sections_with_questions + 1 }

/-- `shared/evidence.py` `validate_grounded_report`: scan the sections with
`validate_step`, starting from a valid empty result. -/
def validate_grounded_report (sections : List GroundedSection) : ValidationResults :=
  sections.foldl validate_step ⟨true, sections.length, 0, 0, [], 0, []⟩

/-- A bullet kept by the revision filter: when at least one of its evidence
ids resolves in the collection, the bullet survives with its id list
restricted to the resolving ids; otherwise it is removed. -/
def keptBullet (evidence : EvidenceCollection) (b : GroundedBullet) :
    Option GroundedBullet :=
  let valid_ids := b.evidence_ids.filter (fun eid => (evidence.get eid).isSome)
  if valid_ids.isEmpty then none else some { b with evidence_ids := valid_ids }

/-- The per-section revision bookkeeping of `agents/revisor.py`
`_revise_section` (the `errors` list of the source is never written to and is
omitted). -/
structure SectionRevision where
  bullets_removed : Nat
  questions_added : Nat
  terminology_fixes : Nat
  warnings : List String
  deriving DecidableEq, Repr

/-- The open-question loop body of `_revise_section`: turn a removed bullet
into a "Needs evidence" question unless that exact question is already
present, counting the additions. -/
def needs_evidence_step (p : GroundedSection × Nat) (b : GroundedBullet) :
    GroundedSection × Nat :=
  let q := "Needs evidence: " ++ b.text
  if q ∈ p.1.open_questions then p else (p.1.add_open_question q, p.2 + 1)

/-- `agents/revisor.py` `_revise_section`: keep only bullets with resolving
evidence ids (restricting each to its resolving ids), turn every removed
bullet into a deduplicated "Needs evidence" open question, give a section left
with neither bullets nor questions a "No evidence found" question, then apply
the terminology mapping to the section name and the surviving bullet texts
when a configuration with a non-empty mapping is present. -/
def _revise_section (sec : GroundedSection) (evidence : EvidenceCollection)
    (config : Option CustomerConfig) : GroundedSection × SectionRevision :=
  let valid_bullets := sec.bullets.filterMap (keptBullet evidence)
  let removed_bullets := sec.bullets.filter
    (fun b => (b.evidence_ids.filter (fun eid => (evidence.get eid).isSome)).isEmpty)
  let warnings := removed_bullets.map
    (fun b => "Removed ungrounded bullet: " ++ takeS b.text 50 ++ "...")
  let s1 := { sec with bullets := valid_bullets }
  let step2 := removed_bullets.foldl needs_evidence_step (s1, 0)
  let s2 := step2.1
  let step3 :=
    if s2.bullets.isEmpty && s2.open_questions.isEmpty then
      (s2.add_open_question ("No evidence found for " ++ s2.name), step2.2 + 1)
    else step2
  let s3 := step3.1
  let questions_added := step3.2
  match config with
  | some cfg =>
    if cfg.terminology_map.isEmpty then
      (s3, ⟨removed_bullets.length, questions_added, 0, warnings⟩)
    else
      let newName := cfg.apply_terminology s3.name
      let fixes1 := if newName ≠ s3.name then 1 else 0
      let newBullets := s3.bullets.map
        (fun b => { b with text := cfg.apply_terminology b.text })
      let fixes2 := fixes1
        + s3.bullets.countP (fun b => cfg.apply_terminology b.text ≠ b.text)
      ({ s3 with name := newName, bullets := newBullets },
        ⟨removed_bullets.length, questions_added, fixes2, warnings⟩)
  | none => (s3, ⟨removed_bullets.length, questions_added, 0, warnings⟩)

/-- The run summary of `agents/revisor.py` `RevisionResult`. -/
structure RevisionResult where
  valid : Bool
  sections_revised : Nat
  bullets_removed : Nat
  questions_added : Nat
  terminology_fixes : Nat
  errors : List String
  warnings : List String
  deriving DecidableEq, Repr

/-- The result of `agents/revisor.py` `_check_slide_budget`. -/
structure BudgetCheck where
  valid : Bool
  errors : List String
  estimated_slides : Nat
  deriving DecidableEq, Repr

/-- The loop body of `_check_slide_budget`: one divider slide plus
`max(1, ceil((bullets + open questions)/6))` content slides capped at the
per-section maximum, recording an error when the cap bites. -/
def budget_step (per_section_max : Nat) (p : Nat × List String)
    (sec : GroundedSection) : Nat × List String :=
  let est := p.1 + 1
  let bullet_count := sec.bullets.length
    + (if sec.open_questions.isEmpty then 0 else sec.open_questions.length)
  let content_slides := max 1 ((bullet_count + 5) / 6)
  let capped :=
    if per_section_max < content_slides then
      (per_section_max, p.2 ++ ["Section '" ++ sec.name ++ "' exceeds "
        ++ toString per_section_max ++ " slides, will be truncated"])
    else (content_slides, p.2)
  (est + capped.1, capped.2)

/-- `agents/revisor.py` `_check_slide_budget`: 2 fixed slides (title +
agenda), then `budget_step` per section; the total is compared against the
minimum and maximum budget. -/
def _check_slide_budget (sections : List GroundedSection) (config : CustomerConfig) :
    BudgetCheck :=
  let per_section_max := config.get_per_section_max
  let scan := sections.foldl (budget_step per_section_max) (2, [])
  let estimated := scan.1
  let low :=
    if estimated < config.get_min_slides then
      (false, scan.2 ++ ["Report has only " ++ toString estimated
        ++ " slides, minimum is " ++ toString config.get_min_slides])
    else (true, scan.2)
  let high :=
    if config.get_max_slides < estimated then
      (false, low.2 ++ ["Report has " ++ toString estimated
        ++ " slides, maximum is " ++ toString config.get_max_slides])
    else low
  ⟨high.1, high.2, estimated⟩

/-- `agents/revisor.py` `revise_sections`: revise every section in order,
accumulate the bookkeeping — per-section messages are prefixed with
`section.name` as it reads after the in-place revision, i.e. the revised
(post-terminology) section name — then run the report validator (whose errors
drive the run's validity) and, when a configuration is present, the
slide-budget check (whose errors are recorded as warnings only). -/
def revise_sections (sections : List GroundedSection) (evidence : EvidenceCollection)
    (config : Option CustomerConfig) : List GroundedSection × RevisionResult :=
  let pairs := sections.map (fun s => _revise_section s evidence config)
  let revised := pairs.map (fun p => p.1)
  let warnings0 := pairs.foldl
    (fun acc p => acc ++ p.2.warnings.map (fun w => "[" ++ p.1.name ++ "] " ++ w)) []
  let validation := validate_grounded_report revised
  let budget_warnings :=
    match config with
    | some cfg =>
      let b := _check_slide_budget revised cfg
      if b.valid then [] else b.errors
    | none => []
  (revised,
    { valid := validation.errors.isEmpty,
      sections_revised := sections.length,
      bullets_removed := (pairs.map (fun p => p.2.bullets_removed)).sum,
      questions_added := (pairs.map (fun p => p.2.questions_added)).sum,
      terminology_fixes := (pairs.map (fun p => p.2.terminology_fixes)).sum,
      errors := validation.errors,
      warnings := warnings0 ++ budget_warnings })

/-- Stable insertion into a list sorted by descending bullet count (model of
Python's stable `sorted(..., key=lambda s: len(s.bullets), reverse=True)`:
an element is inserted after every element of not-smaller key). -/
def insertDescBy (key : GroundedSection → Nat) (x : Nat × GroundedSection) :
    List (Nat × GroundedSection) → List (Nat × GroundedSection)
  | [] => [x]
  | y :: ys => if key y.2 < key x.2 then x :: y :: ys else y :: insertDescBy key x ys

/-- Stable descending sort by bullet count over index-tagged sections. -/
def sortDescBy (key : GroundedSection → Nat) (l : List (Nat × GroundedSection)) :
    List (Nat × GroundedSection) :=
  l.foldl (fun acc x => insertDescBy key x acc) []

/-- Index-keyed association lookup for the trimming updates. -/
def lookupNat {α : Type} : List (Nat × α) → Nat → Option α
  | [], _ => none
  | (k, v) :: r, e => if k = e then some v else lookupNat r e

/-- The trimming loop of `enforce_slide_budget`: walk the sections in
descending bullet-count order; stop when no slides remain to be removed;
truncate any visited section with more than `per_section_max * 6` bullets to
exactly that many, crediting one removed slide per six dropped bullets. -/
def trimFold (cap6 : Nat) : List (Nat × GroundedSection) → Int →
    List (Nat × List GroundedBullet)
  | [], _ => []
  | (i, s) :: rest, slides_to_remove =>
    if slides_to_remove ≤ 0 then []
    else if cap6 < s.bullets.length then
      (i, s.bullets.take cap6)
        :: trimFold cap6 rest (slides_to_remove - (((s.bullets.length - cap6) / 6 : Nat) : Int))
    else trimFold cap6 rest slides_to_remove

/-- `agents/revisor.py` `enforce_slide_budget`: when the budget check fails,
trim bullets from the longest sections first (sections are returned in their
original order, with the trimmed bullet lists applied). -/
def enforce_slide_budget (sections : List GroundedSection) (config : CustomerConfig) :
    List GroundedSection :=
  let budget := _check_slide_budget sections config
  if budget.valid then sections
  else
    let max_slides := config.get_max_slides
    let per_section_max := config.get_per_section_max
    let slides_to_remove : Int := (budget.estimated_slides : Int) - (max_slides : Int)
    let indexed := (List.range sections.length).zip sections
    let sortedL := sortDescBy (fun s => s.bullets.length) indexed
    let updates := trimFold (per_section_max * 6) sortedL slides_to_remove
    ((List.range sections.length).zip sections).map
      (fun p => match lookupNat updates p.1 with
        | some bs => { p.2 with bullets := bs }
        | none => p.2)

/-- `agents/content_analyzer.py` `_apply_customer_constraints`: append a
placeholder section (zero bullets, one explanatory open question) for every
must-include concept missing from the section names, then apply the
terminology mapping to every section's name, description and bullet texts. -/
def _apply_customer_constraints (sections : List GroundedSection)
    (config : CustomerConfig) (_evidence : EvidenceCollection) :
    List GroundedSection :=
  let missing := config.validate_sections (sections.map (·.name))
  let withPlaceholders := sections ++ missing.map
    (fun concept =>
      GroundedSection.add_open_question
        ⟨concept, "Section for " ++ concept, [], [], [], false⟩
        ("No evidence found for " ++ concept))
  withPlaceholders.map
    (fun s => { s with
      name := config.apply_terminology s.name,
      description := config.apply_terminology s.description,
      bullets := s.bullets.map (fun b => { b with text := config.apply_terminology b.text }) })

/-! ### Association-list (Python dict) lemmas -/

theorem upsert_length_le {α : Type} (l : List (String × α)) (k : String) (v : α) :
    (upsert l k v).length ≤ l.length + 1 := by
  induction l with
  | nil => simp [upsert]
  | cons p r ih =>
    simp only [upsert]
    split
    · simp
    · simpa using Nat.succ_le_succ ih

theorem mem_keys_upsert {α : Type} (l : List (String × α)) (k : String) (v : α) :
    k ∈ (upsert l k v).map Prod.fst := by
  induction l with
  | nil => simp [upsert]
  | cons p r ih =>
    simp only [upsert]
    split
    · simp
    · simpa using Or.inr ih

theorem upsert_length_of_mem {α : Type} (l : List (String × α)) (k : String) (v : α)
    (h : k ∈ l.map Prod.fst) : (upsert l k v).length = l.length := by
  induction l with
  | nil => simp at h
  | cons p r ih =>
    simp only [upsert]
    split
    · simp
    · rename_i hne
      simp only [List.map_cons, List.mem_cons] at h
      rcases h with h | h
      · exact absurd h.symm hne
      · simpa using ih h

theorem lookupL_upsert {α : Type} (l : List (String × α)) (k : String) (v : α) :
    lookupL (upsert l k v) k = some v := by
  induction l with
  | nil => simp [upsert, lookupL]
  | cons p r ih =>
    simp only [upsert]
    split
    · simp [lookupL]
    · rename_i hne
      simp [lookupL, hne, ih]

theorem genId_ne_empty (h' : String → String) (pid q : String) :
    genId h' pid q ≠ "" := by
  intro h
  have : (genId h' pid q).data = [] := by rw [h]
  rw [genId] at this
  rw [String.data_append] at this
  simp at this

/-- C9: the auto-generated evidence id is a deterministic function of the
source page id and the quoted text alone — two `EvidenceItem.__init__`
constructions from the same `(page_id, quote)` pair, with arbitrary (even
different) titles, urls, heading paths, block types and extraction
timestamps, produce the identical id. -/
theorem c9_id_deterministic (h' : String → String) (pid q : String)
    (t₁ u₁ bt₁ x₁ t₂ u₂ bt₂ x₂ : String) (p₁ p₂ : List String) (n₁ n₂ : Nat) :
    (mkEvidenceItem h' "" t₁ pid u₁ p₁ q x₁ bt₁ n₁).id
      = (mkEvidenceItem h' "" t₂ pid u₂ p₂ q x₂ bt₂ n₂).id := by
  unfold mkEvidenceItem
  by_cases hq : q = "" <;> simp [hq]

/-- C10: the auto-generated id depends only on the page id and the first 100
characters of the quote, so two items from the same page whose quotes agree on
their first 100 characters receive the same id; adding both to any collection
stores the later item under that shared id, overwriting the earlier one, and
the resulting dictionary holds strictly fewer entries than the number of
added units. -/
theorem c10_truncation_collision (h' : String → String) (pid q₁ q₂ : String)
    (t₁ u₁ bt₁ x₁ t₂ u₂ bt₂ x₂ : String) (p₁ p₂ : List String) (n₁ n₂ : Nat)
    (c : EvidenceCollection)
    (hq : q₁.data.take 100 = q₂.data.take 100) (hq₁ : q₁ ≠ "") (hq₂ : q₂ ≠ "") :
    (mkEvidenceItem h' "" t₁ pid u₁ p₁ q₁ x₁ bt₁ n₁).id
      = (mkEvidenceItem h' "" t₂ pid u₂ p₂ q₂ x₂ bt₂ n₂).id
    ∧ (EvidenceCollection.add h'
        (EvidenceCollection.add h' c (mkEvidenceItem h' "" t₁ pid u₁ p₁ q₁ x₁ bt₁ n₁))
        (mkEvidenceItem h' "" t₂ pid u₂ p₂ q₂ x₂ bt₂ n₂)).get
          (mkEvidenceItem h' "" t₂ pid u₂ p₂ q₂ x₂ bt₂ n₂).id
        = some (mkEvidenceItem h' "" t₂ pid u₂ p₂ q₂ x₂ bt₂ n₂)
    ∧ (EvidenceCollection.add h'
        (EvidenceCollection.add h' c (mkEvidenceItem h' "" t₁ pid u₁ p₁ q₁ x₁ bt₁ n₁))
        (mkEvidenceItem h' "" t₂ pid u₂ p₂ q₂ x₂ bt₂ n₂)).items.length
        < c.items.length + 2 := by
  have hgen : genId h' pid q₁ = genId h' pid q₂ := by
    unfold genId takeS
    rw [hq]
  have hi₁ : mkEvidenceItem h' "" t₁ pid u₁ p₁ q₁ x₁ bt₁ n₁
      = ⟨genId h' pid q₁, t₁, pid, u₁, p₁, q₁, x₁, bt₁, n₁⟩ := by
    unfold mkEvidenceItem
    simp [hq₁]
  have hi₂ : mkEvidenceItem h' "" t₂ pid u₂ p₂ q₂ x₂ bt₂ n₂
      = ⟨genId h' pid q₂, t₂, pid, u₂, p₂, q₂, x₂, bt₂, n₂⟩ := by
    unfold mkEvidenceItem
    simp [hq₂]
  refine ⟨by rw [hi₁, hi₂, hgen], ?_, ?_⟩
  · rw [hi₁, hi₂]
    unfold EvidenceCollection.add EvidenceCollection.get
    simp [genId_ne_empty h' pid q₁, genId_ne_empty h' pid q₂]
    exact lookupL_upsert _ _ _
  · rw [hi₁, hi₂]
    unfold EvidenceCollection.add
    simp only []
    simp [genId_ne_empty h' pid q₁, genId_ne_empty h' pid q₂]
    have h1 : (upsert c.items (genId h' pid q₁)
        (⟨genId h' pid q₁, t₁, pid, u₁, p₁, q₁, x₁, bt₁, n₁⟩ : EvidenceItem)).length
        ≤ c.items.length + 1 := upsert_length_le _ _ _
    have h2 := upsert_length_of_mem
      (upsert c.items (genId h' pid q₁)
        (⟨genId h' pid q₁, t₁, pid, u₁, p₁, q₁, x₁, bt₁, n₁⟩ : EvidenceItem))
      (genId h' pid q₂)
      (⟨genId h' pid q₂, t₂, pid, u₂, p₂, q₂, x₂, bt₂, n₂⟩ : EvidenceItem)
      (by rw [← hgen]; exact mem_keys_upsert _ _ _)
    omega

/-- Concrete witness for the id-collision theorem: two distinct items whose
quotes agree on their first 100 characters collapse to one entry. -/
theorem c10_truncation_collision_witness :
    ("hello world" : String).data.take 100 = ("hello world" : String).data.take 100
    ∧ (mkEvidenceItem (fun s => s) "" "TitleA" "pg" "" [] "hello world" "a" "bullet" 0).id
        = (mkEvidenceItem (fun s => s) "" "TitleB" "pg" "" ["H"] "hello world" "b" "bullet" 1).id
    ∧ (EvidenceCollection.add (fun s => s)
        (EvidenceCollection.add (fun s => s) ⟨[], "", "", 0⟩
          (mkEvidenceItem (fun s => s) "" "TitleA" "pg" "" [] "hello world" "a" "bullet" 0))
        (mkEvidenceItem (fun s => s) "" "TitleB" "pg" "" ["H"] "hello world" "b" "bullet" 1)).items.length
        < 0 + 2 := by
  refine ⟨rfl, ?_, ?_⟩
  · exact (c10_truncation_collision (fun s => s) "pg" "hello world" "hello world"
      "TitleA" "" "bullet" "a" "TitleB" "" "bullet" "b" [] ["H"] 0 1 ⟨[], "", "", 0⟩
      rfl (by decide) (by decide)).1
  · exact (c10_truncation_collision (fun s => s) "pg" "hello world" "hello world"
      "TitleA" "" "bullet" "a" "TitleB" "" "bullet" "b" [] ["H"] 0 1 ⟨[], "", "", 0⟩
      rfl (by decide) (by decide)).2.2

/-! ### Slide-budget estimate (C4, C5) -/

theorem budget_step_fst (cap : Nat) (p : Nat × List String) (sec : GroundedSection) :
    (budget_step cap p sec).1
      = p.1 + (1 + min cap
          (max 1 ((sec.bullets.length + sec.open_questions.length + 5) / 6))) := by
  unfold budget_step
  have hq : (if sec.open_questions.isEmpty then 0 else sec.open_questions.length)
      = sec.open_questions.length := by
    cases h : sec.open_questions with
    | nil => simp
    | cons a l => simp
  simp only [hq]
  split <;> rename_i hcap <;> simp only [] <;> omega

theorem budget_fold_fst (cap : Nat) (l : List GroundedSection) :
    ∀ (a : Nat) (e : List String),
      (l.foldl (budget_step cap) (a, e)).1
        = a + (l.map (fun s =>
            1 + min cap
              (max 1 ((s.bullets.length + s.open_questions.length + 5) / 6)))).sum := by
  induction l with
  | nil => intro a e; simp
  | cons s rest ih =>
    intro a e
    simp only [List.foldl_cons, List.map_cons, List.sum_cons]
    have hstep := budget_step_fst cap (a, e) s
    cases hb : budget_step cap (a, e) s with
    | mk b1 b2 =>
      rw [hb] at hstep
      simp only at hstep
      rw [ih b1 b2, hstep]
      omega

/-- Modelled from the spec: the slide-estimation formula exactly as the claim
states it — 2 fixed slides plus, per section, one divider slide plus
`ceil((bullet_count + open_question_count)/6)` content slides capped at the
per-section maximum (the claim's formula has no one-content-slide floor). -/
def claimedSlideEstimate (sections : List GroundedSection)
    (config : CustomerConfig) : Nat :=
  2 + (sections.map (fun s =>
    1 + min config.get_per_section_max
      ((s.bullets.length + s.open_questions.length + 5) / 6))).sum

/-- C4 counterexample: on a section with no bullets and no open questions the
code charges `max(1, ceil(0/6)) = 1` content slide, while the claim's formula
charges `ceil(0/6) = 0`; the estimated totals differ (4 versus 3). -/
theorem c4_estimate_counterexample :
    (_check_slide_budget [⟨"Empty", "", [], [], [], true⟩] ⟨"D", [], [], [], []⟩).estimated_slides = 4
    ∧ claimedSlideEstimate [⟨"Empty", "", [], [], [], true⟩] ⟨"D", [], [], [], []⟩ = 3
    ∧ (_check_slide_budget [⟨"Empty", "", [], [], [], true⟩] ⟨"D", [], [], [], []⟩).estimated_slides
        ≠ claimedSlideEstimate [⟨"Empty", "", [], [], [], true⟩] ⟨"D", [], [], [], []⟩ := by
  refine ⟨?_, ?_, ?_⟩ <;> decide

/-- C4 (amended): for every section list and configuration, the estimated
total slide count equals 2 (title + agenda) plus, per section, 1 divider
slide plus `max(1, ceil((bullet_count + open_question_count)/6))` content
slides — at least one content slide per section — capped at the configured
per-section maximum. -/
theorem c4_estimate_formula (sections : List GroundedSection) (config : CustomerConfig) :
    (_check_slide_budget sections config).estimated_slides
      = 2 + (sections.map (fun s =>
          1 + min config.get_per_section_max
            (max 1 ((s.bullets.length + s.open_questions.length + 5) / 6)))).sum := by
  unfold _check_slide_budget
  simp only []
  exact budget_fold_fst config.get_per_section_max sections 2 []

/-- C5 counterexample: with budget min 8 / max 10 / one slide per section and
three sections of 12 bullets each, the per-section cap already holds the
estimate at 8, the budget check passes, and enforcement trims nothing — no
section's bullet count is reduced to 6 or fewer. -/
theorem c5_no_trim_counterexample :
    enforce_slide_budget
        [⟨"S1", "", List.replicate 12 ⟨"b", ["E"]⟩, [], [], true⟩,
         ⟨"S2", "", List.replicate 12 ⟨"b", ["E"]⟩, [], [], true⟩,
         ⟨"S3", "", List.replicate 12 ⟨"b", ["E"]⟩, [], [], true⟩]
        ⟨"B", [], [], [("min", 8), ("max", 10), ("per_section_max", 1)], []⟩
      = [⟨"S1", "", List.replicate 12 ⟨"b", ["E"]⟩, [], [], true⟩,
         ⟨"S2", "", List.replicate 12 ⟨"b", ["E"]⟩, [], [], true⟩,
         ⟨"S3", "", List.replicate 12 ⟨"b", ["E"]⟩, [], [], true⟩]
    ∧ (enforce_slide_budget
        [⟨"S1", "", List.replicate 12 ⟨"b", ["E"]⟩, [], [], true⟩,
         ⟨"S2", "", List.replicate 12 ⟨"b", ["E"]⟩, [], [], true⟩,
         ⟨"S3", "", List.replicate 12 ⟨"b", ["E"]⟩, [], [], true⟩]
        ⟨"B", [], [], [("min", 8), ("max", 10), ("per_section_max", 1)], []⟩).all
        (fun sec => decide (6 < sec.bullets.length)) = true := by
  constructor <;> decide

/-- C5 (amended): in the claimed scenario the estimator's per-section cap
already yields 2 + 3×(1+1) = 8 slides, inside the [8,10] budget, so
`enforce_slide_budget` returns the sections unchanged (12 bullets each) and
the recomputed estimate is 8 ≤ 10. -/
theorem c5_budget_scenario :
    (_check_slide_budget
        [⟨"S1", "", List.replicate 12 ⟨"b", ["E"]⟩, [], [], true⟩,
         ⟨"S2", "", List.replicate 12 ⟨"b", ["E"]⟩, [], [], true⟩,
         ⟨"S3", "", List.replicate 12 ⟨"b", ["E"]⟩, [], [], true⟩]
        ⟨"B", [], [], [("min", 8), ("max", 10), ("per_section_max", 1)], []⟩).valid = true
    ∧ (enforce_slide_budget
        [⟨"S1", "", List.replicate 12 ⟨"b", ["E"]⟩, [], [], true⟩,
         ⟨"S2", "", List.replicate 12 ⟨"b", ["E"]⟩, [], [], true⟩,
         ⟨"S3", "", List.replicate 12 ⟨"b", ["E"]⟩, [], [], true⟩]
        ⟨"B", [], [], [("min", 8), ("max", 10), ("per_section_max", 1)], []⟩).map
        (fun sec => sec.bullets.length) = [12, 12, 12]
    ∧ (_check_slide_budget
        (enforce_slide_budget
          [⟨"S1", "", List.replicate 12 ⟨"b", ["E"]⟩, [], [], true⟩,
           ⟨"S2", "", List.replicate 12 ⟨"b", ["E"]⟩, [], [], true⟩,
           ⟨"S3", "", List.replicate 12 ⟨"b", ["E"]⟩, [], [], true⟩]
          ⟨"B", [], [], [("min", 8), ("max", 10), ("per_section_max", 1)], []⟩)
        ⟨"B", [], [], [("min", 8), ("max", 10), ("per_section_max", 1)], []⟩).estimated_slides = 8
    ∧ (8 : Nat) ≤ 10 := by
  refine ⟨?_, ?_, ?_, ?_⟩ <;> decide

/-! ### Revision-pass structure lemmas (C1, C2, C7) -/

theorem needs_evidence_step_shape (p : GroundedSection × Nat) (b : GroundedBullet) :
    (needs_evidence_step p b).1.bullets = p.1.bullets
    ∧ (needs_evidence_step p b).1.name = p.1.name
    ∧ (needs_evidence_step p b).1.description = p.1.description := by
  simp only [needs_evidence_step]
  split
  · exact ⟨rfl, rfl, rfl⟩
  · exact ⟨rfl, rfl, rfl⟩

theorem needs_evidence_step_mono (p : GroundedSection × Nat) (b : GroundedBullet)
    (x : String) (hx : x ∈ p.1.open_questions) :
    x ∈ (needs_evidence_step p b).1.open_questions := by
  simp only [needs_evidence_step]
  split
  · exact hx
  · unfold GroundedSection.add_open_question
    simp only [List.mem_append]
    exact Or.inl hx

theorem needs_evidence_step_mem (p : GroundedSection × Nat) (b : GroundedBullet) :
    ("Needs evidence: " ++ b.text) ∈ (needs_evidence_step p b).1.open_questions := by
  simp only [needs_evidence_step]
  split
  · rename_i hmem; exact hmem
  · unfold GroundedSection.add_open_question
    simp

theorem needs_evidence_fold_shape (l : List GroundedBullet) :
    ∀ (p : GroundedSection × Nat),
      (l.foldl needs_evidence_step p).1.bullets = p.1.bullets
      ∧ (l.foldl needs_evidence_step p).1.name = p.1.name
      ∧ (l.foldl needs_evidence_step p).1.description = p.1.description := by
  induction l with
  | nil => intro p; exact ⟨rfl, rfl, rfl⟩
  | cons b rest ih =>
    intro p
    simp only [List.foldl_cons]
    have h := ih (needs_evidence_step p b)
    have hs := needs_evidence_step_shape p b
    exact ⟨h.1.trans hs.1, h.2.1.trans hs.2.1, h.2.2.trans hs.2.2⟩

theorem needs_evidence_fold_mono (l : List GroundedBullet) :
    ∀ (p : GroundedSection × Nat) (x : String), x ∈ p.1.open_questions →
      x ∈ (l.foldl needs_evidence_step p).1.open_questions := by
  induction l with
  | nil => intro p x hx; exact hx
  | cons b rest ih =>
    intro p x hx
    simp only [List.foldl_cons]
    exact ih _ x (needs_evidence_step_mono p b x hx)

theorem needs_evidence_fold_mem (l : List GroundedBullet) :
    ∀ (p : GroundedSection × Nat) (b : GroundedBullet), b ∈ l →
      ("Needs evidence: " ++ b.text) ∈ (l.foldl needs_evidence_step p).1.open_questions := by
  induction l with
  | nil => intro p b hb; simp at hb
  | cons b0 rest ih =>
    intro p b hb
    simp only [List.foldl_cons]
    rcases List.mem_cons.mp hb with hb | hb
    · subst hb
      exact needs_evidence_fold_mono rest _ _ (needs_evidence_step_mem p b)
    · exact ih _ b hb

theorem keptBullet_sound (ev : EvidenceCollection) (b' b : GroundedBullet)
    (hk : keptBullet ev b = some b') :
    b'.evidence_ids ≠ []
    ∧ (∀ eid ∈ b'.evidence_ids, (ev.get eid).isSome = true)
    ∧ b'.text = b.text
    ∧ b'.evidence_ids = b.evidence_ids.filter (fun eid => (ev.get eid).isSome) := by
  simp only [keptBullet] at hk
  split at hk
  · exact absurd hk (by simp)
  · rename_i hne
    have hb' : b' = { b with
        evidence_ids := b.evidence_ids.filter (fun eid => (ev.get eid).isSome) } := by
      exact (Option.some.injEq _ _ ▸ hk).symm
    subst hb'
    refine ⟨?_, ?_, rfl, rfl⟩
    · simpa [List.isEmpty_iff] using hne
    · intro eid hmem
      simp only [List.mem_filter] at hmem
      exact hmem.2

theorem kept_length (ev : EvidenceCollection) (l : List GroundedBullet) :
    (l.filterMap (keptBullet ev)).length
      + l.countP (fun b => (b.evidence_ids.filter (fun eid => (ev.get eid).isSome)).isEmpty)
      = l.length := by
  induction l with
  | nil => simp
  | cons b rest ih =>
    simp only [List.filterMap_cons, List.countP_cons]
    by_cases h : (b.evidence_ids.filter (fun eid => (ev.get eid).isSome)).isEmpty
    · have hk : keptBullet ev b = none := by
        simp only [keptBullet]
        rw [if_pos h]
      rw [hk]
      simp [h, ih]
      omega
    · have hk : keptBullet ev b = some { b with
          evidence_ids := b.evidence_ids.filter (fun eid => (ev.get eid).isSome) } := by
        simp only [keptBullet]
        rw [if_neg h]
      rw [hk]
      simp [h, ih]
      omega

theorem add_open_question_bullets (s : GroundedSection) (q : String) :
    (s.add_open_question q).bullets = s.bullets := rfl

theorem add_open_question_name (s : GroundedSection) (q : String) :
    (s.add_open_question q).name = s.name := rfl

theorem add_open_question_description (s : GroundedSection) (q : String) :
    (s.add_open_question q).description = s.description := rfl

theorem add_open_question_questions (s : GroundedSection) (q : String) :
    (s.add_open_question q).open_questions = s.open_questions ++ [q] := rfl

theorem revise_section_shape (sec : GroundedSection) (ev : EvidenceCollection)
    (config : Option CustomerConfig) :
    (_revise_section sec ev config).1.description = sec.description
    ∧ (_revise_section sec ev config).1.bullets.length
        = (sec.bullets.filterMap (keptBullet ev)).length
    ∧ (∀ b' ∈ (_revise_section sec ev config).1.bullets,
        ∃ b0 ∈ sec.bullets.filterMap (keptBullet ev), b'.evidence_ids = b0.evidence_ids)
    ∧ (∀ bb ∈ sec.bullets,
        (bb.evidence_ids.filter (fun eid => (ev.get eid).isSome)).isEmpty = true →
        ("Needs evidence: " ++ bb.text) ∈ (_revise_section sec ev config).1.open_questions) := by
  unfold _revise_section
  simp only []
  have hshape := needs_evidence_fold_shape
    (sec.bullets.filter (fun b => (b.evidence_ids.filter (fun eid => (ev.get eid).isSome)).isEmpty))
    ({ sec with bullets := sec.bullets.filterMap (keptBullet ev) }, 0)
  have hmemq : ∀ bb ∈ sec.bullets,
      (bb.evidence_ids.filter (fun eid => (ev.get eid).isSome)).isEmpty = true →
      ("Needs evidence: " ++ bb.text) ∈
        ((sec.bullets.filter
            (fun b => (b.evidence_ids.filter (fun eid => (ev.get eid).isSome)).isEmpty)).foldl
          needs_evidence_step
          ({ sec with bullets := sec.bullets.filterMap (keptBullet ev) }, 0)).1.open_questions := by
    intro bb hbb hinv
    exact needs_evidence_fold_mem _ _ bb (List.mem_filter.mpr ⟨hbb, hinv⟩)
  have hb1 : ({ sec with bullets := sec.bullets.filterMap (keptBullet ev) } :
      GroundedSection).bullets = sec.bullets.filterMap (keptBullet ev) := rfl
  rw [hb1] at hshape
  cases config with
  | none =>
    simp only []
    split
    · refine ⟨?_, ?_, ?_, ?_⟩
      · rw [add_open_question_description]; exact hshape.2.2
      · rw [add_open_question_bullets, hshape.1]
      · intro b' hb'
        rw [add_open_question_bullets, hshape.1] at hb'
        exact ⟨b', hb', rfl⟩
      · intro bb hbb hinv
        rw [add_open_question_questions]
        exact List.mem_append.mpr (Or.inl (hmemq bb hbb hinv))
    · refine ⟨hshape.2.2, by rw [hshape.1], ?_, ?_⟩
      · intro b' hb'
        rw [hshape.1] at hb'
        exact ⟨b', hb', rfl⟩
      · intro bb hbb hinv
        exact hmemq bb hbb hinv
  | some cfg =>
    simp only []
    by_cases hterm : cfg.terminology_map.isEmpty
    · rw [if_pos hterm]
      split
      · refine ⟨?_, ?_, ?_, ?_⟩
        · rw [add_open_question_description]; exact hshape.2.2
        · rw [add_open_question_bullets, hshape.1]
        · intro b' hb'
          rw [add_open_question_bullets, hshape.1] at hb'
          exact ⟨b', hb', rfl⟩
        · intro bb hbb hinv
          rw [add_open_question_questions]
          exact List.mem_append.mpr (Or.inl (hmemq bb hbb hinv))
      · refine ⟨hshape.2.2, by rw [hshape.1], ?_, ?_⟩
        · intro b' hb'
          rw [hshape.1] at hb'
          exact ⟨b', hb', rfl⟩
        · intro bb hbb hinv
          exact hmemq bb hbb hinv
    · rw [if_neg hterm]
      split
      · refine ⟨?_, ?_, ?_, ?_⟩
        · rw [add_open_question_description]; exact hshape.2.2
        · simp only [List.length_map]
          rw [add_open_question_bullets, hshape.1]
        · intro b' hb'
          simp only [List.mem_map] at hb'
          obtain ⟨b0, hb0, hb0eq⟩ := hb'
          rw [add_open_question_bullets, hshape.1] at hb0
          exact ⟨b0, hb0, by rw [← hb0eq]⟩
        · intro bb hbb hinv
          rw [add_open_question_questions]
          exact List.mem_append.mpr (Or.inl (hmemq bb hbb hinv))
      · refine ⟨hshape.2.2, ?_, ?_, ?_⟩
        · simp only [List.length_map]
          rw [hshape.1]
        · intro b' hb'
          simp only [List.mem_map] at hb'
          obtain ⟨b0, hb0, hb0eq⟩ := hb'
          rw [hshape.1] at hb0
          exact ⟨b0, hb0, by rw [← hb0eq]⟩
        · intro bb hbb hinv
          exact hmemq bb hbb hinv

theorem validate_step_clean (r : ValidationResults) (sec : GroundedSection)
    (h : sec.validate_grounding = []) :
    (validate_step r sec).valid = r.valid
    ∧ (validate_step r sec).ungrounded_bullets = r.ungrounded_bullets
    ∧ (validate_step r sec).errors = r.errors := by
  simp only [validate_step, h]
  simp only [List.isEmpty_nil, if_pos]
  split <;> exact ⟨rfl, rfl, rfl⟩

theorem validate_fold_clean (l : List GroundedSection) :
    ∀ (r : ValidationResults), (∀ s ∈ l, s.validate_grounding = []) →
      (l.foldl validate_step r).valid = r.valid
      ∧ (l.foldl validate_step r).ungrounded_bullets = r.ungrounded_bullets
      ∧ (l.foldl validate_step r).errors = r.errors := by
  induction l with
  | nil => intro r _; exact ⟨rfl, rfl, rfl⟩
  | cons s rest ih =>
    intro r h
    simp only [List.foldl_cons]
    have hs := validate_step_clean r s (h s (List.mem_cons_self s rest))
    have hr := ih (validate_step r s) (fun x hx => h x (List.mem_cons_of_mem s hx))
    exact ⟨hr.1.trans hs.1, hr.2.1.trans hs.2.1, hr.2.2.trans hs.2.2⟩

theorem validate_grounding_nil (s : GroundedSection)
    (h : ∀ b ∈ s.bullets, b.evidence_ids ≠ []) : s.validate_grounding = [] := by
  unfold GroundedSection.validate_grounding
  have : s.bullets.filter (fun b => !b.is_grounded) = [] := by
    rw [List.filter_eq_nil_iff]
    intro b hb
    simp only [GroundedBullet.is_grounded, Bool.not_eq_true']
    simp only [decide_eq_false_iff_not, not_lt, Nat.le_zero, List.length_eq_zero]
    intro hzero
    exact absurd hzero (h b hb)
  rw [this]
  rfl

theorem revise_sections_fst (sections : List GroundedSection)
    (ev : EvidenceCollection) (config : Option CustomerConfig) :
    (revise_sections sections ev config).1
      = sections.map (fun s => (_revise_section s ev config).1) := by
  unfold revise_sections
  simp only [List.map_map]
  rfl

/-- C1: after the revision pass, every bullet of every output section has a
non-empty evidence-id list in which every id resolves in the evidence
collection, and `validate_grounded_report` applied to the revised output
reports valid with zero ungrounded bullets. -/
theorem c1_grounding_invariant (sections : List GroundedSection)
    (ev : EvidenceCollection) (config : Option CustomerConfig) :
    (∀ sec ∈ (revise_sections sections ev config).1, ∀ b ∈ sec.bullets,
      b.evidence_ids ≠ [] ∧ ∀ eid ∈ b.evidence_ids, (ev.get eid).isSome = true)
    ∧ (validate_grounded_report (revise_sections sections ev config).1).valid = true
    ∧ (validate_grounded_report (revise_sections sections ev config).1).ungrounded_bullets
        = [] := by
  have hbullets : ∀ sec ∈ (revise_sections sections ev config).1, ∀ b ∈ sec.bullets,
      b.evidence_ids ≠ [] ∧ ∀ eid ∈ b.evidence_ids, (ev.get eid).isSome = true := by
    intro sec hsec b hb
    rw [revise_sections_fst] at hsec
    simp only [List.mem_map] at hsec
    obtain ⟨s0, _, hs0⟩ := hsec
    subst hs0
    obtain ⟨b0, hb0, hids⟩ := (revise_section_shape s0 ev config).2.2.1 b hb
    simp only [List.mem_filterMap] at hb0
    obtain ⟨a, _, ha⟩ := hb0
    have hsound := keptBullet_sound ev b0 a ha
    rw [hids]
    exact ⟨hsound.1, hsound.2.1⟩
  have hclean : ∀ s ∈ (revise_sections sections ev config).1, s.validate_grounding = [] := by
    intro s hs
    exact validate_grounding_nil s (fun b hb => (hbullets s hs b hb).1)
  have hv := validate_fold_clean (revise_sections sections ev config).1
    ⟨true, (revise_sections sections ev config).1.length, 0, 0, [], 0, []⟩ hclean
  exact ⟨hbullets, hv.1, hv.2.1⟩

/-- Witness for the grounding invariant at a concrete run: a section with one
partially-dangling bullet and one fully-dangling bullet is revised to a
single bullet citing only the resolving id, and the validator passes. -/
theorem c1_grounding_invariant_witness :
    ((⟨"p", ["E1"]⟩ : GroundedBullet).evidence_ids ≠ []
      ∧ ((⟨[("E1", ⟨"E1", "", "pg", "", [], "q", "q", "bullet", 0⟩)], "", "", 0⟩ :
          EvidenceCollection).get "E1").isSome = true)
    ∧ (validate_grounded_report
        (revise_sections
          [⟨"M", "d", [⟨"p", ["E1", "BAD"]⟩, ⟨"r", ["BAD"]⟩], [], [], true⟩]
          ⟨[("E1", ⟨"E1", "", "pg", "", [], "q", "q", "bullet", 0⟩)], "", "", 0⟩
          none).1).valid = true := by
  constructor
  · have h := (c1_grounding_invariant
      [⟨"M", "d", [⟨"p", ["E1", "BAD"]⟩, ⟨"r", ["BAD"]⟩], [], [], true⟩]
      ⟨[("E1", ⟨"E1", "", "pg", "", [], "q", "q", "bullet", 0⟩)], "", "", 0⟩
      none).1
      ⟨"M", "d", [⟨"p", ["E1"]⟩], [], ["Needs evidence: r"], false⟩
      (by decide) ⟨"p", ["E1"]⟩ (by decide)
    exact ⟨h.1, h.2 "E1" (by decide)⟩
  · exact (c1_grounding_invariant
      [⟨"M", "d", [⟨"p", ["E1", "BAD"]⟩, ⟨"r", ["BAD"]⟩], [], [], true⟩]
      ⟨[("E1", ⟨"E1", "", "pg", "", [], "q", "q", "bullet", 0⟩)], "", "", 0⟩
      none).2.1

/-- C2 counterexample: a section with two identical ungrounded bullets (N = 2,
K = 2) is revised to zero bullets, but the duplicate "Needs evidence"
question is deduplicated, so the revised section has only one open question —
fewer than K. -/
theorem c2_dedup_counterexample :
    (⟨"S", "", [⟨"foo", ["X"]⟩, ⟨"foo", ["X"]⟩], [], [], true⟩ :
        GroundedSection).bullets.countP
      (fun b => (b.evidence_ids.filter
        (fun eid => ((⟨[], "", "", 0⟩ : EvidenceCollection).get eid).isSome)).isEmpty) = 2
    ∧ (_revise_section ⟨"S", "", [⟨"foo", ["X"]⟩, ⟨"foo", ["X"]⟩], [], [], true⟩
        ⟨[], "", "", 0⟩ none).1.bullets.length = 0
    ∧ (_revise_section ⟨"S", "", [⟨"foo", ["X"]⟩, ⟨"foo", ["X"]⟩], [], [], true⟩
        ⟨[], "", "", 0⟩ none).1.open_questions = ["Needs evidence: foo"]
    ∧ ¬(2 ≤ (_revise_section ⟨"S", "", [⟨"foo", ["X"]⟩, ⟨"foo", ["X"]⟩], [], [], true⟩
        ⟨[], "", "", 0⟩ none).1.open_questions.length) := by
  refine ⟨?_, ?_, ?_, ?_⟩ <;> decide

/-- C2 (amended): a section with N bullets of which K have no resolving
evidence id is revised to exactly N − K bullets, and for every dropped bullet
the question "Needs evidence: <original text>" is present among the revised
section's open questions (identical dropped texts share a single
deduplicated question). -/
theorem c2_no_silent_loss (sec : GroundedSection) (ev : EvidenceCollection)
    (config : Option CustomerConfig) :
    (_revise_section sec ev config).1.bullets.length
        + sec.bullets.countP
            (fun b => (b.evidence_ids.filter (fun eid => (ev.get eid).isSome)).isEmpty)
      = sec.bullets.length
    ∧ ∀ b ∈ sec.bullets,
        (b.evidence_ids.filter (fun eid => (ev.get eid).isSome)).isEmpty = true →
        ("Needs evidence: " ++ b.text) ∈ (_revise_section sec ev config).1.open_questions := by
  constructor
  · rw [(revise_section_shape sec ev config).2.1]
    exact kept_length ev sec.bullets
  · exact (revise_section_shape sec ev config).2.2.2

/-- Witness for the no-silent-loss theorem at a concrete run: one grounded
and one ungrounded bullet give 2 = 1 + 1, and the dropped text is traced. -/
theorem c2_no_silent_loss_witness :
    ((_revise_section ⟨"M", "d", [⟨"p", ["E1", "BAD"]⟩, ⟨"r", ["BAD"]⟩], [], [], true⟩
        ⟨[("E1", ⟨"E1", "", "pg", "", [], "q", "q", "bullet", 0⟩)], "", "", 0⟩
        none).1.bullets.length
      + ([⟨"p", ["E1", "BAD"]⟩, ⟨"r", ["BAD"]⟩] : List GroundedBullet).countP
          (fun b => (b.evidence_ids.filter
            (fun eid => ((⟨[("E1", ⟨"E1", "", "pg", "", [], "q", "q", "bullet", 0⟩)],
              "", "", 0⟩ : EvidenceCollection).get eid).isSome)).isEmpty)
      = 2)
    ∧ ("Needs evidence: r") ∈ (_revise_section
        ⟨"M", "d", [⟨"p", ["E1", "BAD"]⟩, ⟨"r", ["BAD"]⟩], [], [], true⟩
        ⟨[("E1", ⟨"E1", "", "pg", "", [], "q", "q", "bullet", 0⟩)], "", "", 0⟩
        none).1.open_questions := by
  constructor
  · exact (c2_no_silent_loss
      ⟨"M", "d", [⟨"p", ["E1", "BAD"]⟩, ⟨"r", ["BAD"]⟩], [], [], true⟩
      ⟨[("E1", ⟨"E1", "", "pg", "", [], "q", "q", "bullet", 0⟩)], "", "", 0⟩ none).1
  · exact (c2_no_silent_loss
      ⟨"M", "d", [⟨"p", ["E1", "BAD"]⟩, ⟨"r", ["BAD"]⟩], [], [], true⟩
      ⟨[("E1", ⟨"E1", "", "pg", "", [], "q", "q", "bullet", 0⟩)], "", "", 0⟩ none).2
      ⟨"r", ["BAD"]⟩ (by decide) (by decide)

/-! ### Whole-word substitution machinery (C7, C8) -/

theorem toNat_ofNat_valid (n : Nat) (h : n < 55296) : (Char.ofNat n).toNat = n := by
  unfold Char.ofNat
  rw [dif_pos (Or.inl h)]
  rfl

theorem toNat_lowerCh (c : Char) :
    (lowerCh c).toNat = if 65 ≤ c.toNat ∧ c.toNat ≤ 90 then c.toNat + 32 else c.toNat := by
  unfold lowerCh
  split
  · rename_i h
    exact toNat_ofNat_valid _ (by omega)
  · rfl

theorem wordChar_lowerCh (c : Char) : wordCharB (lowerCh c) = wordCharB c := by
  unfold wordCharB
  rw [decide_eq_decide]
  rw [toNat_lowerCh]
  split
  · rename_i h
    omega
  · rename_i h
    exact Iff.rfl

theorem wordChar_of_lower_eq {a b : Char} (h : lowerCh a = lowerCh b) :
    wordCharB a = wordCharB b := by
  rw [← wordChar_lowerCh a, ← wordChar_lowerCh b, h]

theorem matchCI_iff (o : List Char) : ∀ (s : List Char),
    matchCI o s = true
      ↔ o.length ≤ s.length ∧ (s.take o.length).map lowerCh = o.map lowerCh := by
  induction o with
  | nil => intro s; simp [matchCI]
  | cons a as ih =>
    intro s
    cases s with
    | nil => simp [matchCI]
    | cons b bs =>
      simp only [matchCI, Bool.and_eq_true, beq_iff_eq, List.length_cons,
        List.take_succ_cons, List.map_cons, List.cons.injEq]
      rw [ih bs]
      constructor
      · rintro ⟨h1, h2, h3⟩
        exact ⟨by omega, h1.symm, h3⟩
      · rintro ⟨h1, h2, h3⟩
        exact ⟨h2.symm, by omega, h3⟩

theorem wordRuns_nil : wordRuns [] = [] := by
  simp [wordRuns]

theorem wordRuns_cons_word (c : Char) (cs : List Char) (h : wordCharB c = true) :
    wordRuns (c :: cs)
      = (c :: cs.takeWhile wordCharB) :: wordRuns (cs.dropWhile wordCharB) := by
  rw [wordRuns]
  simp [h]

theorem wordRuns_cons_nonword (c : Char) (cs : List Char) (h : wordCharB c = false) :
    wordRuns (c :: cs) = wordRuns cs := by
  rw [wordRuns]
  simp [h]

theorem wordRuns_allword (r : List Char) (hne : r ≠ [])
    (hw : ∀ x ∈ r, wordCharB x = true) : wordRuns r = [r] := by
  cases r with
  | nil => exact absurd rfl hne
  | cons c cs =>
    rw [wordRuns_cons_word c cs (hw c (by simp))]
    have ht : cs.takeWhile wordCharB = cs :=
      List.takeWhile_eq_self_iff.mpr (fun x hx => hw x (by simp [hx]))
    have hd : cs.dropWhile wordCharB = [] :=
      List.dropWhile_eq_nil_iff.mpr (fun x hx => hw x (by simp [hx]))
    rw [ht, hd, wordRuns_nil]

theorem takeWhile_nil_of_head {p : Char → Bool} {B : List Char}
    (hB : ∀ d, B.head? = some d → p d = false) : B.takeWhile p = [] := by
  cases B with
  | nil => rfl
  | cons d ds =>
    have := hB d rfl
    simp [List.takeWhile_cons, this]

theorem dropWhile_self_of_head {p : Char → Bool} {B : List Char}
    (hB : ∀ d, B.head? = some d → p d = false) : B.dropWhile p = B := by
  cases B with
  | nil => rfl
  | cons d ds =>
    have := hB d rfl
    simp [List.dropWhile_cons, this]

theorem wordRuns_append (B : List Char)
    (hB : ∀ d, B.head? = some d → wordCharB d = false) :
    ∀ (n : Nat) (A : List Char), A.length ≤ n →
      wordRuns (A ++ B) = wordRuns A ++ wordRuns B := by
  intro n
  induction n with
  | zero =>
    intro A hA
    have : A = [] := List.length_eq_zero.mp (Nat.le_zero.mp hA)
    subst this
    simp [wordRuns_nil]
  | succ m ih =>
    intro A hA
    cases A with
    | nil => simp [wordRuns_nil]
    | cons c cs =>
      by_cases hc : wordCharB c = true
      · rw [List.cons_append, wordRuns_cons_word _ _ hc, wordRuns_cons_word c cs hc]
        have htw : (cs ++ B).takeWhile wordCharB = cs.takeWhile wordCharB := by
          rw [List.takeWhile_append]
          split
          · rename_i hlen
            have hcs : cs.takeWhile wordCharB = cs :=
              (List.takeWhile_prefix wordCharB).eq_of_length hlen
            rw [takeWhile_nil_of_head hB, hcs]
            simp
          · rfl
        have hdw : (cs ++ B).dropWhile wordCharB = cs.dropWhile wordCharB ++ B := by
          rw [List.dropWhile_append]
          split
          · rename_i hemp
            rw [List.isEmpty_iff] at hemp
            rw [hemp, dropWhile_self_of_head hB]
            simp
          · rfl
        rw [htw, hdw]
        have hlen : (cs.dropWhile wordCharB).length ≤ m := by
          have h1 := dropWhile_length_le wordCharB cs
          simp only [List.length_cons] at hA
          omega
        rw [ih (cs.dropWhile wordCharB) hlen]
        simp
      · have hc' : wordCharB c = false := by simpa using hc
        rw [List.cons_append, wordRuns_cons_nonword _ _ hc', wordRuns_cons_nonword c cs hc']
        have hlen : cs.length ≤ m := by
          simp only [List.length_cons] at hA
          omega
        exact ih cs hlen

theorem isEmpty_false_of_ne {α : Type} {old : List α} (h : old ≠ []) :
    old.isEmpty = false := by
  cases old with
  | nil => exact absurd rfl h
  | cons o os => rfl

theorem reSubAux_nil_ne (old rep : List Char) (b : Bool) (h : old ≠ []) :
    reSubAux old rep b [] = [] := by
  rw [reSubAux]
  simp [isEmpty_false_of_ne h]

theorem reSubAux_head_nonword (old rep : List Char) (hne : old ≠ [])
    (hw : ∀ x ∈ old, wordCharB x = true) (b : Bool) (d : Char) (ds : List Char)
    (hd : wordCharB d = false) :
    reSubAux old rep b (d :: ds) = d :: reSubAux old rep false ds := by
  have hm : matchCI old (d :: ds) = false := by
    cases old with
    | nil => exact absurd rfl hne
    | cons o os =>
      have ho : wordCharB o = true := hw o (by simp)
      have : lowerCh o ≠ lowerCh d := by
        intro hEq
        have := wordChar_of_lower_eq hEq
        rw [ho, hd] at this
        exact Bool.true_eq_false.mp this
      simp [matchCI, this]
  rw [reSubAux]
  simp [isEmpty_false_of_ne hne, hm, hd]

theorem reSubAux_start_irrel (old rep : List Char) (hne : old ≠ [])
    (hw : ∀ x ∈ old, wordCharB x = true) (b : Bool) (rest : List Char)
    (hrest : ∀ d, rest.head? = some d → wordCharB d = false) :
    reSubAux old rep b rest = reSubAux old rep false rest := by
  cases rest with
  | nil => rw [reSubAux_nil_ne old rep b hne, reSubAux_nil_ne old rep false hne]
  | cons d ds =>
    have hd : wordCharB d = false := hrest d rfl
    rw [reSubAux_head_nonword old rep hne hw b d ds hd,
      reSubAux_head_nonword old rep hne hw false d ds hd]

theorem reSubAux_copy_run (old rep : List Char) (hne : old ≠ []) :
    ∀ (r rest : List Char), (∀ x ∈ r, wordCharB x = true) →
      reSubAux old rep true (r ++ rest) = r ++ reSubAux old rep true rest := by
  intro r
  induction r with
  | nil => intro rest _; simp
  | cons c cs ih =>
    intro rest hr
    have hc : wordCharB c = true := hr c (by simp)
    have hb : bdry true (some c) = false := by simp [bdry, isWordO, hc]
    rw [List.cons_append, reSubAux]
    simp only [isEmpty_false_of_ne hne, Bool.false_eq_true, if_false, hb,
      Bool.false_and, if_neg (Bool.false_ne_true), hc]
    rw [ih rest (fun x hx => hr x (by simp [hx]))]
    simp

theorem head_dropWhile_false (p : Char → Bool) (l : List Char) :
    ∀ d, (l.dropWhile p).head? = some d → p d = false := by
  intro d hd
  have := List.head?_dropWhile_not p l
  rw [hd] at this
  exact this

theorem takeWhile_eq_take_of (p : Char → Bool) : ∀ (l : List Char) (n : Nat),
    (∀ x ∈ l.take n, p x = true) →
    (∀ d, (l.drop n).head? = some d → p d = false) →
    l.takeWhile p = l.take n := by
  intro l
  induction l with
  | nil => intro n _ _; simp
  | cons a as ih =>
    intro n h1 h2
    cases n with
    | zero =>
      have := h2 a (by simp)
      simp [List.takeWhile_cons, this]
    | succ m =>
      have ha : p a = true := h1 a (by simp)
      simp only [List.take_succ_cons]
      rw [List.takeWhile_cons_of_pos ha]
      rw [ih m (fun x hx => h1 x (by simp [hx])) (fun d hd => h2 d (by simpa using hd))]

theorem matchCI_allword (old : List Char) : ∀ (s : List Char),
    (∀ x ∈ old, wordCharB x = true) → matchCI old s = true →
    ∀ x ∈ s.take old.length, wordCharB x = true := by
  induction old with
  | nil => intro s _ _ x hx; simp at hx
  | cons o os ih =>
    intro s hw hm
    cases s with
    | nil => simp [matchCI] at hm
    | cons b bs =>
      simp only [matchCI, Bool.and_eq_true, beq_iff_eq] at hm
      intro x hx
      simp only [List.length_cons, List.take_succ_cons, List.mem_cons] at hx
      rcases hx with rfl | hx
      · have hob := wordChar_of_lower_eq hm.1
        rw [← hob]
        exact hw o (by simp)
      · exact ih bs (fun y hy => hw y (by simp [hy])) hm.2 x hx

theorem isWordO_getLast_of_allword (l : List Char) (hne : l ≠ [])
    (hw : ∀ x ∈ l, wordCharB x = true) : isWordO l.getLast? = true := by
  cases h : l.getLast? with
  | none => exact absurd (List.getLast?_eq_none_iff.mp h) hne
  | some d =>
    obtain ⟨hl, hdl⟩ := List.mem_getLast?_eq_getLast (h ▸ rfl : d ∈ l.getLast?)
    have hd : d ∈ l := hdl ▸ List.getLast_mem hl
    simp [isWordO, hw d hd]

theorem reSubAux_run_match (old rep : List Char) (hne : old ≠ [])
    (hw : ∀ x ∈ old, wordCharB x = true) (c : Char) (cs : List Char)
    (hc : wordCharB c = true)
    (hlow : ((c :: cs).takeWhile wordCharB).map lowerCh = old.map lowerCh) :
    reSubAux old rep false (c :: cs)
      = rep ++ reSubAux old rep false ((c :: cs).dropWhile wordCharB) := by
  have hrun : (c :: cs).takeWhile wordCharB = c :: cs.takeWhile wordCharB :=
    List.takeWhile_cons_of_pos hc
  have hlr : ((c :: cs).takeWhile wordCharB).length = old.length := by
    rw [← List.length_map _ lowerCh, hlow, List.length_map]
  have hsplit : (c :: cs).takeWhile wordCharB ++ (c :: cs).dropWhile wordCharB
      = c :: cs := List.takeWhile_append_dropWhile wordCharB (c :: cs)
  have htake : (c :: cs).take old.length = (c :: cs).takeWhile wordCharB := by
    conv_lhs => rw [← hsplit]
    rw [← hlr, List.take_left]
  have hdrop : (c :: cs).drop old.length = (c :: cs).dropWhile wordCharB := by
    conv_lhs => rw [← hsplit]
    rw [← hlr, List.drop_left]
  have hmatch : matchCI old (c :: cs) = true := by
    rw [matchCI_iff]
    constructor
    · have := List.length_take_le old.length (c :: cs)
      have h2 : ((c :: cs).take old.length).length = old.length := by
        rw [htake, hlr]
      have h3 := List.length_take old.length (c :: cs)
      omega
    · rw [htake, hlow]
  have hrw : ∀ x ∈ (c :: cs).takeWhile wordCharB, wordCharB x = true :=
    fun x hx => List.mem_takeWhile_imp hx
  have hlast : isWordO (((c :: cs).take old.length).getLast?) = true := by
    rw [htake]
    exact isWordO_getLast_of_allword _ (by rw [hrun]; simp) hrw
  have hnextF : ∀ d, ((c :: cs).drop old.length).head? = some d → wordCharB d = false := by
    rw [hdrop]
    exact head_dropWhile_false wordCharB (c :: cs)
  have hclose : bdry (isWordO (((c :: cs).take old.length).getLast?))
      (((c :: cs).drop old.length).head?) = true := by
    rw [hlast]
    cases hh : ((c :: cs).drop old.length).head? with
    | none => rfl
    | some d =>
      have := hnextF d hh
      simp [bdry, isWordO, this]
  have hopen : bdry false (some c) = true := by simp [bdry, isWordO, hc]
  rw [reSubAux]
  simp only [isEmpty_false_of_ne hne, Bool.false_eq_true, if_false,
    hopen, hmatch, hclose, Bool.and_self, Bool.true_and, if_true]
  rw [hlast, hdrop]
  rw [reSubAux_start_irrel old rep hne hw true _
    (head_dropWhile_false wordCharB (c :: cs))]

theorem reSubAux_run_nomatch (old rep : List Char) (hne : old ≠ [])
    (hw : ∀ x ∈ old, wordCharB x = true) (c : Char) (cs : List Char)
    (hc : wordCharB c = true)
    (hlow : ((c :: cs).takeWhile wordCharB).map lowerCh ≠ old.map lowerCh) :
    reSubAux old rep false (c :: cs)
      = (c :: cs).takeWhile wordCharB
        ++ reSubAux old rep false ((c :: cs).dropWhile wordCharB) := by
  have hrun : (c :: cs).takeWhile wordCharB = c :: cs.takeWhile wordCharB :=
    List.takeWhile_cons_of_pos hc
  have hopen : bdry false (some c) = true := by simp [bdry, isWordO, hc]
  have htakene : (c :: cs).take old.length ≠ [] := by
    cases old with
    | nil => exact absurd rfl hne
    | cons o os => simp [List.take_succ_cons]
  have hcond : (matchCI old (c :: cs)
      && bdry (isWordO (((c :: cs).take old.length).getLast?))
          (((c :: cs).drop old.length).head?)) = false := by
    by_contra hcond
    have hx : (matchCI old (c :: cs)
        && bdry (isWordO (((c :: cs).take old.length).getLast?))
            (((c :: cs).drop old.length).head?)) = true := by
      simpa using hcond
    rw [Bool.and_eq_true] at hx
    have htw_all : ∀ x ∈ (c :: cs).take old.length, wordCharB x = true :=
      matchCI_allword old (c :: cs) hw hx.1
    have hlast : isWordO (((c :: cs).take old.length).getLast?) = true :=
      isWordO_getLast_of_allword _ htakene htw_all
    have hnextF : ∀ d, ((c :: cs).drop old.length).head? = some d →
        wordCharB d = false := by
      intro d hd
      have hcl := hx.2
      rw [hlast, hd] at hcl
      simp only [bdry, isWordO] at hcl
      cases hwd : wordCharB d with
      | false => rfl
      | true => rw [hwd] at hcl; simp at hcl
    have heq : (c :: cs).takeWhile wordCharB = (c :: cs).take old.length :=
      takeWhile_eq_take_of wordCharB (c :: cs) old.length htw_all hnextF
    have hmap := ((matchCI_iff old (c :: cs)).mp hx.1).2
    rw [← heq] at hmap
    exact hlow hmap
  rw [reSubAux]
  simp only [isEmpty_false_of_ne hne, Bool.false_eq_true, if_false,
    hopen, Bool.true_and, hcond, if_neg (Bool.false_ne_true), hc]
  have hcs_all : ∀ x ∈ cs.takeWhile wordCharB, wordCharB x = true :=
    fun x hx => List.mem_takeWhile_imp hx
  have hcs : reSubAux old rep true cs
      = cs.takeWhile wordCharB ++ reSubAux old rep false (cs.dropWhile wordCharB) := by
    conv_lhs => rw [← List.takeWhile_append_dropWhile wordCharB cs]
    rw [reSubAux_copy_run old rep hne _ _ hcs_all]
    rw [reSubAux_start_irrel old rep hne hw true _
      (head_dropWhile_false wordCharB cs)]
  rw [hcs, hrun, List.dropWhile_cons_of_pos hc]
  simp

theorem reSubAux_false_head (old rep : List Char) (hne : old ≠ [])
    (hw : ∀ x ∈ old, wordCharB x = true) (rest : List Char)
    (hrest : ∀ d, rest.head? = some d → wordCharB d = false) :
    ∀ d, (reSubAux old rep false rest).head? = some d → wordCharB d = false := by
  cases rest with
  | nil =>
    rw [reSubAux_nil_ne old rep false hne]
    intro d hd
    simp at hd
  | cons e es =>
    have he := hrest e rfl
    rw [reSubAux_head_nonword old rep hne hw false e es he]
    intro d hd
    simp only [List.head?_cons, Option.some.injEq] at hd
    rw [← hd]
    exact he

theorem reSubAux_words (old rep : List Char) (hne : old ≠ [])
    (hw : ∀ x ∈ old, wordCharB x = true) :
    ∀ (n : Nat) (s : List Char), s.length ≤ n →
      ∀ w ∈ wordRuns (reSubAux old rep false s),
        (w ∈ wordRuns s ∧ w.map lowerCh ≠ old.map lowerCh) ∨ w ∈ wordRuns rep := by
  intro n
  induction n with
  | zero =>
    intro s hs w hw'
    have : s = [] := List.length_eq_zero.mp (Nat.le_zero.mp hs)
    subst this
    rw [reSubAux_nil_ne old rep false hne, wordRuns_nil] at hw'
    simp at hw'
  | succ m ih =>
    intro s hs w hw'
    cases s with
    | nil =>
      rw [reSubAux_nil_ne old rep false hne, wordRuns_nil] at hw'
      simp at hw'
    | cons c cs =>
      have hrest_head := head_dropWhile_false wordCharB (c :: cs)
      have hRhead := reSubAux_false_head old rep hne hw
        ((c :: cs).dropWhile wordCharB) hrest_head
      by_cases hc : wordCharB c = true
      · have hrest_len : ((c :: cs).dropWhile wordCharB).length ≤ m := by
          rw [List.dropWhile_cons_of_pos hc]
          have := dropWhile_length_le wordCharB cs
          simp only [List.length_cons] at hs
          omega
        have hruns : wordRuns (c :: cs)
            = ((c :: cs).takeWhile wordCharB) :: wordRuns ((c :: cs).dropWhile wordCharB) := by
          rw [wordRuns_cons_word c cs hc, List.takeWhile_cons_of_pos hc,
            List.dropWhile_cons_of_pos hc]
        by_cases hlow : ((c :: cs).takeWhile wordCharB).map lowerCh = old.map lowerCh
        · rw [reSubAux_run_match old rep hne hw c cs hc hlow] at hw'
          rw [wordRuns_append _ hRhead rep.length rep (Nat.le_refl _)] at hw'
          rcases List.mem_append.mp hw' with hrep | hR
          · exact Or.inr hrep
          · rcases ih ((c :: cs).dropWhile wordCharB) hrest_len w hR with ⟨hmem, hneq⟩ | hrep
            · exact Or.inl ⟨by rw [hruns]; exact List.mem_cons_of_mem _ hmem, hneq⟩
            · exact Or.inr hrep
        · rw [reSubAux_run_nomatch old rep hne hw c cs hc hlow] at hw'
          rw [wordRuns_append _ hRhead
            ((c :: cs).takeWhile wordCharB).length _ (Nat.le_refl _)] at hw'
          have hrunw : wordRuns ((c :: cs).takeWhile wordCharB)
              = [(c :: cs).takeWhile wordCharB] := by
            refine wordRuns_allword _ ?_ (fun x hx => List.mem_takeWhile_imp hx)
            rw [List.takeWhile_cons_of_pos hc]
            simp
          rw [hrunw] at hw'
          rcases List.mem_append.mp hw' with hrun | hR
          · have : w = (c :: cs).takeWhile wordCharB := by simpa using hrun
            subst this
            exact Or.inl ⟨by rw [hruns]; exact List.mem_cons_self _ _, hlow⟩
          · rcases ih ((c :: cs).dropWhile wordCharB) hrest_len w hR with ⟨hmem, hneq⟩ | hrep
            · exact Or.inl ⟨by rw [hruns]; exact List.mem_cons_of_mem _ hmem, hneq⟩
            · exact Or.inr hrep
      · have hc' : wordCharB c = false := by simpa using hc
        rw [reSubAux_head_nonword old rep hne hw false c cs hc'] at hw'
        rw [wordRuns_cons_nonword _ _ hc'] at hw'
        have hcs_len : cs.length ≤ m := by
          simp only [List.length_cons] at hs
          omega
        rcases ih cs hcs_len w hw' with ⟨hmem, hneq⟩ | hrep
        · exact Or.inl ⟨by rw [wordRuns_cons_nonword c cs hc']; exact hmem, hneq⟩
        · exact Or.inr hrep

theorem reSubAux_id_of_avoid (old rep : List Char) (hne : old ≠ [])
    (hw : ∀ x ∈ old, wordCharB x = true) :
    ∀ (n : Nat) (s : List Char), s.length ≤ n →
      (∀ w ∈ wordRuns s, w.map lowerCh ≠ old.map lowerCh) →
      reSubAux old rep false s = s := by
  intro n
  induction n with
  | zero =>
    intro s hs _
    have : s = [] := List.length_eq_zero.mp (Nat.le_zero.mp hs)
    subst this
    exact reSubAux_nil_ne old rep false hne
  | succ m ih =>
    intro s hs havoid
    cases s with
    | nil => exact reSubAux_nil_ne old rep false hne
    | cons c cs =>
      by_cases hc : wordCharB c = true
      · have hruns : wordRuns (c :: cs)
            = ((c :: cs).takeWhile wordCharB) :: wordRuns ((c :: cs).dropWhile wordCharB) := by
          rw [wordRuns_cons_word c cs hc, List.takeWhile_cons_of_pos hc,
            List.dropWhile_cons_of_pos hc]
        have hlow : ((c :: cs).takeWhile wordCharB).map lowerCh ≠ old.map lowerCh :=
          havoid _ (by rw [hruns]; exact List.mem_cons_self _ _)
        rw [reSubAux_run_nomatch old rep hne hw c cs hc hlow]
        have hrest_len : ((c :: cs).dropWhile wordCharB).length ≤ m := by
          rw [List.dropWhile_cons_of_pos hc]
          have := dropWhile_length_le wordCharB cs
          simp only [List.length_cons] at hs
          omega
        rw [ih _ hrest_len (fun w hw'' =>
          havoid w (by rw [hruns]; exact List.mem_cons_of_mem _ hw''))]
        exact List.takeWhile_append_dropWhile wordCharB (c :: cs)
      · have hc' : wordCharB c = false := by simpa using hc
        rw [reSubAux_head_nonword old rep hne hw false c cs hc']
        have hcs_len : cs.length ≤ m := by
          simp only [List.length_cons] at hs
          omega
        rw [ih cs hcs_len (fun w hw'' =>
          havoid w (by rw [wordRuns_cons_nonword c cs hc']; exact hw''))]

theorem termFold_words : ∀ (l : List (String × String)) (t : String),
    (∀ p ∈ l, p.1.data ≠ [] ∧ ∀ x ∈ p.1.data, wordCharB x = true) →
    ∀ w ∈ wordRuns ((l.foldl (fun result p => reSubWordCI p.1 p.2 result) t)).data,
      (w ∈ wordRuns t.data ∧ ∀ p ∈ l, w.map lowerCh ≠ p.1.data.map lowerCh)
      ∨ ∃ p ∈ l, w ∈ wordRuns p.2.data := by
  intro l
  induction l with
  | nil =>
    intro t _ w hw
    left
    refine ⟨hw, ?_⟩
    intro p hp
    simp at hp
  | cons q l' ih =>
    intro t hok w hw
    simp only [List.foldl_cons] at hw
    have hq := hok q (List.mem_cons_self q l')
    rcases ih (reSubWordCI q.1 q.2 t)
        (fun p hp => hok p (List.mem_cons_of_mem q hp)) w hw with ⟨hmem, hall⟩ | ⟨p, hp, hpw⟩
    · have hmem' : w ∈ wordRuns (reSubAux q.1.data q.2.data false t.data) := hmem
      rcases reSubAux_words q.1.data q.2.data hq.1 hq.2 t.data.length t.data
          (Nat.le_refl _) w hmem' with ⟨hm2, hne2⟩ | hrep
      · left
        refine ⟨hm2, ?_⟩
        intro p hp
        rcases List.mem_cons.mp hp with rfl | hp'
        · exact hne2
        · exact hall p hp'
      · right
        exact ⟨q, List.mem_cons_self q l', hrep⟩
    · right
      exact ⟨p, List.mem_cons_of_mem q hp, hpw⟩

theorem termFold_id : ∀ (l : List (String × String)) (t : String),
    (∀ p ∈ l, p.1.data ≠ [] ∧ ∀ x ∈ p.1.data, wordCharB x = true) →
    (∀ w ∈ wordRuns t.data, ∀ p ∈ l, w.map lowerCh ≠ p.1.data.map lowerCh) →
    l.foldl (fun result p => reSubWordCI p.1 p.2 result) t = t := by
  intro l
  induction l with
  | nil => intro t _ _; rfl
  | cons q l' ih =>
    intro t hok havoid
    simp only [List.foldl_cons]
    have hq := hok q (List.mem_cons_self q l')
    have hfix : reSubWordCI q.1 q.2 t = t := by
      show (⟨reSubAux q.1.data q.2.data false t.data⟩ : String) = t
      rw [reSubAux_id_of_avoid q.1.data q.2.data hq.1 hq.2 t.data.length t.data
        (Nat.le_refl _) (fun w hw => havoid w hw q (List.mem_cons_self q l'))]
    rw [hfix]
    exact ih t (fun p hp => hok p (List.mem_cons_of_mem q hp))
      (fun w hw p hp => havoid w hw p (List.mem_cons_of_mem q hp))

/-- C8 counterexample: the terminology mapping ab → Q, x- → a satisfies the
claim's hypothesis — no word of a replacement term coincides, under any
casing, with a mapped term (nor with any word of a mapped term), and both
replacement terms are free of backslashes, so `re.sub` inserts them exactly
as written and the model is exact here — yet on the text "x-b" one
application yields "ab" (the rule x- → a splices "a" onto the adjacent "b")
and a second application rewrites that to "Q": the pass is not idempotent. -/
theorem c8_idempotence_counterexample :
    (([("ab", "Q"), ("x-", "a")] : List (String × String)).all
      (fun p => !p.2.data.contains '\\') = true)
    ∧ (([("ab", "Q"), ("x-", "a")] : List (String × String)).all
      (fun p => (wordRuns p.2.data).all
        (fun w => ([("ab", "Q"), ("x-", "a")] : List (String × String)).all
          (fun q => w.map lowerCh != q.1.data.map lowerCh))) = true)
    ∧ (([("ab", "Q"), ("x-", "a")] : List (String × String)).all
      (fun p => (wordRuns p.2.data).all
        (fun w => ([("ab", "Q"), ("x-", "a")] : List (String × String)).all
          (fun q => (wordRuns q.1.data).all
            (fun v => w.map lowerCh != v.map lowerCh)))) = true)
    ∧ (CustomerConfig.apply_terminology
        ⟨"T", [], [("ab", "Q"), ("x-", "a")], [], []⟩
        (CustomerConfig.apply_terminology
          ⟨"T", [], [("ab", "Q"), ("x-", "a")], [], []⟩ "x-b")
      = "Q")
    ∧ (CustomerConfig.apply_terminology
        ⟨"T", [], [("ab", "Q"), ("x-", "a")], [], []⟩ "x-b" = "ab")
    ∧ (CustomerConfig.apply_terminology
        ⟨"T", [], [("ab", "Q"), ("x-", "a")], [], []⟩
        (CustomerConfig.apply_terminology
          ⟨"T", [], [("ab", "Q"), ("x-", "a")], [], []⟩ "x-b")
      ≠ CustomerConfig.apply_terminology
          ⟨"T", [], [("ab", "Q"), ("x-", "a")], [], []⟩ "x-b") := by
  refine ⟨?_, ?_, ?_, ?_, ?_, ?_⟩ <;>
    simp +decide [wordRuns, CustomerConfig.apply_terminology, reSubWordCI, reSubAux]

/-- C8 (amended): `apply_terminology` is idempotent whenever every mapped
(old) term is non-empty and consists only of word characters, no word of any
replacement (new) term coincides case-insensitively with any mapped term,
and no replacement term contains a backslash.  The word-character condition
on the old terms is needed (see the counterexample: an old term ending in a
non-word character can splice a replacement onto adjacent text, fabricating
a fresh occurrence of another old term).  The backslash-freedom condition
confines the statement to replacement strings that `re.sub` inserts exactly
as written — the domain modelled by `reSubWordCI`; a replacement containing a
backslash is processed by `re.sub` as a template (escapes and group
references such as `\g<0>` standing for the matched text), which can
reproduce a mapped term verbatim and again defeat idempotence. -/
theorem c8_terminology_idempotent (cfg : CustomerConfig) (text : String)
    (hold : ∀ p ∈ cfg.terminology_map,
      p.1.data ≠ [] ∧ ∀ x ∈ p.1.data, wordCharB x = true)
    (hdisj : ∀ p ∈ cfg.terminology_map, ∀ w ∈ wordRuns p.2.data,
      ∀ q ∈ cfg.terminology_map, w.map lowerCh ≠ q.1.data.map lowerCh)
    (_hlit : ∀ p ∈ cfg.terminology_map, '\\' ∉ p.2.data) :
    cfg.apply_terminology (cfg.apply_terminology text)
      = cfg.apply_terminology text := by
  unfold CustomerConfig.apply_terminology
  apply termFold_id _ _ hold
  intro w hw p hp
  rcases termFold_words cfg.terminology_map text hold w hw with ⟨_, hall⟩ | ⟨q, hq, hqw⟩
  · exact hall p hp
  · exact hdisj q hq w hqw p hp

/-- Witness for terminology idempotence at a concrete mapping and text. -/
theorem c8_terminology_idempotent_witness :
    CustomerConfig.apply_terminology
      ⟨"A", [], [("Azure", "AWS Cloud")], [], []⟩
      (CustomerConfig.apply_terminology
        ⟨"A", [], [("Azure", "AWS Cloud")], [], []⟩ "azure beats Azure-based azured")
    = CustomerConfig.apply_terminology
        ⟨"A", [], [("Azure", "AWS Cloud")], [], []⟩ "azure beats Azure-based azured" :=
  c8_terminology_idempotent ⟨"A", [], [("Azure", "AWS Cloud")], [], []⟩
    "azure beats Azure-based azured"
    (by simp +decide [wordRuns]) (by simp +decide [wordRuns]) (by decide)

theorem revise_section_terminology (sec : GroundedSection) (ev : EvidenceCollection)
    (cfg : CustomerConfig) (hmap : cfg.terminology_map ≠ []) :
    (_revise_section sec ev (some cfg)).1.name = cfg.apply_terminology sec.name
    ∧ (_revise_section sec ev (some cfg)).1.bullets
        = (sec.bullets.filterMap (keptBullet ev)).map
            (fun b => { b with text := cfg.apply_terminology b.text }) := by
  unfold _revise_section
  simp only []
  have hshape := needs_evidence_fold_shape
    (sec.bullets.filter (fun b => (b.evidence_ids.filter (fun eid => (ev.get eid).isSome)).isEmpty))
    ({ sec with bullets := sec.bullets.filterMap (keptBullet ev) }, 0)
  have hb1 : ({ sec with bullets := sec.bullets.filterMap (keptBullet ev) } :
      GroundedSection).bullets = sec.bullets.filterMap (keptBullet ev) := rfl
  have hn1 : ({ sec with bullets := sec.bullets.filterMap (keptBullet ev) } :
      GroundedSection).name = sec.name := rfl
  rw [hb1] at hshape
  rw [hn1] at hshape
  have hie : cfg.terminology_map.isEmpty = false := isEmpty_false_of_ne hmap
  rw [hie]
  simp only [Bool.false_eq_true, if_false]
  split
  · constructor
    · show cfg.apply_terminology _ = _
      rw [add_open_question_name, hshape.2.1]
    · show List.map _ _ = _
      rw [add_open_question_bullets, hshape.1]
  · constructor
    · show cfg.apply_terminology _ = _
      rw [hshape.2.1]
    · show List.map _ _ = _
      rw [hshape.1]

/-- C7 counterexample: the revision pass leaves the section description
untouched even though the terminology mapping would change it — the claim's
"applies the mapping to its description" fails on the code (only the content
analyzer's constraint pass maps descriptions). -/
theorem c7_description_counterexample :
    (_revise_section ⟨"Intro", "Azure strategy", [], [], ["q"], true⟩ ⟨[], "", "", 0⟩
      (some ⟨"A", [], [("Azure", "AWS")], [], []⟩)).1.description = "Azure strategy"
    ∧ CustomerConfig.apply_terminology ⟨"A", [], [("Azure", "AWS")], [], []⟩
        "Azure strategy" = "AWS strategy"
    ∧ ("Azure strategy" : String) ≠ "AWS strategy" := by
  refine ⟨?_, ?_, ?_⟩
  · exact (revise_section_shape ⟨"Intro", "Azure strategy", [], [], ["q"], true⟩
      ⟨[], "", "", 0⟩ (some ⟨"A", [], [("Azure", "AWS")], [], []⟩)).1
  · simp +decide [CustomerConfig.apply_terminology, reSubWordCI, reSubAux]
  · decide

/-- C7 (amended): under a configuration with a non-empty terminology map, the
revision pass applies the mapping to the section name and to every surviving
bullet's text, but leaves the description unchanged; the mapping itself
replaces case-insensitively and only at whole-word boundaries — a text none
of whose words equals a mapped term (so the terms occur at most inside
longer words) is left entirely unchanged. -/
theorem c7_terminology_application (sec : GroundedSection) (ev : EvidenceCollection)
    (cfg : CustomerConfig) (hmap : cfg.terminology_map ≠ []) :
    (_revise_section sec ev (some cfg)).1.name = cfg.apply_terminology sec.name
    ∧ (_revise_section sec ev (some cfg)).1.description = sec.description
    ∧ (_revise_section sec ev (some cfg)).1.bullets
        = (sec.bullets.filterMap (keptBullet ev)).map
            (fun b => { b with text := cfg.apply_terminology b.text })
    ∧ (∀ t : String,
        (∀ p ∈ cfg.terminology_map, p.1.data ≠ [] ∧ ∀ x ∈ p.1.data, wordCharB x = true) →
        (∀ w ∈ wordRuns t.data, ∀ p ∈ cfg.terminology_map,
          w.map lowerCh ≠ p.1.data.map lowerCh) →
        cfg.apply_terminology t = t) := by
  refine ⟨(revise_section_terminology sec ev cfg hmap).1,
    (revise_section_shape sec ev (some cfg)).1,
    (revise_section_terminology sec ev cfg hmap).2, ?_⟩
  intro t hok havoid
  exact termFold_id cfg.terminology_map t hok havoid

/-- Witness for the terminology-application theorem at a concrete section:
the name is mapped, the description is untouched, and a text containing the
mapped term only inside longer words is left unchanged. -/
theorem c7_terminology_application_witness :
    (_revise_section ⟨"Azure plan", "Azure docs", [], [], ["q"], true⟩ ⟨[], "", "", 0⟩
      (some ⟨"A", [], [("Azure", "AWS")], [], []⟩)).1.name
      = CustomerConfig.apply_terminology ⟨"A", [], [("Azure", "AWS")], [], []⟩ "Azure plan"
    ∧ (_revise_section ⟨"Azure plan", "Azure docs", [], [], ["q"], true⟩ ⟨[], "", "", 0⟩
        (some ⟨"A", [], [("Azure", "AWS")], [], []⟩)).1.description = "Azure docs"
    ∧ CustomerConfig.apply_terminology ⟨"A", [], [("Azure", "AWS")], [], []⟩
        "azured concatenate" = "azured concatenate" := by
  refine ⟨?_, ?_, ?_⟩
  · exact (c7_terminology_application ⟨"Azure plan", "Azure docs", [], [], ["q"], true⟩
      ⟨[], "", "", 0⟩ ⟨"A", [], [("Azure", "AWS")], [], []⟩ (by decide)).1
  · exact (c7_terminology_application ⟨"Azure plan", "Azure docs", [], [], ["q"], true⟩
      ⟨[], "", "", 0⟩ ⟨"A", [], [("Azure", "AWS")], [], []⟩ (by decide)).2.1
  · exact (c7_terminology_application ⟨"Azure plan", "Azure docs", [], [], ["q"], true⟩
      ⟨[], "", "", 0⟩ ⟨"A", [], [("Azure", "AWS")], [], []⟩ (by decide)).2.2.2
      "azured concatenate" (by decide) (by simp +decide [wordRuns])

theorem apply_terminology_empty (cfg : CustomerConfig)
    (h : cfg.terminology_map = []) (t : String) : cfg.apply_terminology t = t := by
  unfold CustomerConfig.apply_terminology
  rw [h]
  rfl

theorem constraints_empty_map (sections : List GroundedSection) (cfg : CustomerConfig)
    (ev : EvidenceCollection) (h : cfg.terminology_map = []) :
    _apply_customer_constraints sections cfg ev
      = sections ++ (cfg.validate_sections (sections.map (·.name))).map
          (fun concept => (⟨concept, "Section for " ++ concept, [], [],
            ["No evidence found for " ++ concept], false⟩ : GroundedSection)) := by
  unfold _apply_customer_constraints
  simp only []
  have hbul : ∀ b : GroundedBullet,
      ({ b with text := cfg.apply_terminology b.text }) = b := by
    intro b
    cases b with
    | mk t ids => simp [apply_terminology_empty cfg h]
  have hsec : ∀ s : GroundedSection,
      ({ s with
        name := cfg.apply_terminology s.name,
        description := cfg.apply_terminology s.description,
        bullets := s.bullets.map (fun b => { b with text := cfg.apply_terminology b.text }) })
      = s := by
    intro s
    cases s with
    | mk n d bl ei oq hse =>
      simp only [apply_terminology_empty cfg h]
      congr 1
      rw [show (fun (b : GroundedBullet) =>
        ({ text := b.text, evidence_ids := b.evidence_ids } : GroundedBullet)) = id from rfl,
        List.map_id]
  rw [List.map_congr_left (fun s _ => hsec s),
    show (fun (s : GroundedSection) => s) = id from rfl, List.map_id]
  rfl

theorem mem_validate_sections (cfg : CustomerConfig) (names : List String) (B : String)
    (hB : B ∈ cfg.must_include)
    (hmiss : ∀ nm ∈ names, substrB (lowerS B).data (lowerS nm).data = false) :
    B ∈ cfg.validate_sections names := by
  unfold CustomerConfig.validate_sections
  simp only []
  refine List.mem_filter.mpr ⟨hB, ?_⟩
  simp only [Bool.not_eq_true', List.any_eq_false]
  intro x hx
  simp only [List.mem_map] at hx
  obtain ⟨nm, hnm, rfl⟩ := hx
  simp [hmiss nm hnm]

theorem revise_placeholder (ev : EvidenceCollection) (cfg : CustomerConfig)
    (hterm : cfg.terminology_map = []) (concept : String) :
    (_revise_section (⟨concept, "Section for " ++ concept, [], [],
        ["No evidence found for " ++ concept], false⟩ : GroundedSection)
      ev (some cfg)).1
      = ⟨concept, "Section for " ++ concept, [], [],
          ["No evidence found for " ++ concept], false⟩ := by
  unfold _revise_section
  simp only []
  rw [hterm]
  rfl

/-- C3 counterexample: the revision pass itself never appends a required
section — on an empty discovered list it returns an empty list — and even for
the composed pipeline (constraint pass, then revision) a terminology mapping
that rewrites the required name leaves the final list with no section whose
name matches "Summary" case-insensitively. -/
theorem c3_missing_section_counterexample :
    (revise_sections ([] : List GroundedSection) ⟨[], "", "", 0⟩
      (some ⟨"C", ["Summary"], [("Summary", "Recap")], [], []⟩)).1 = []
    ∧ (revise_sections
        (_apply_customer_constraints [] ⟨"C", ["Summary"], [("Summary", "Recap")], [], []⟩
          ⟨[], "", "", 0⟩)
        ⟨[], "", "", 0⟩
        (some ⟨"C", ["Summary"], [("Summary", "Recap")], [], []⟩)).1
      = [⟨"Recap", "Section for Recap", [], [], ["No evidence found for Summary"], false⟩]
    ∧ (revise_sections
        (_apply_customer_constraints [] ⟨"C", ["Summary"], [("Summary", "Recap")], [], []⟩
          ⟨[], "", "", 0⟩)
        ⟨[], "", "", 0⟩
        (some ⟨"C", ["Summary"], [("Summary", "Recap")], [], []⟩)).1.all
        (fun s => !(substrB (lowerS "Summary").data (lowerS s.name).data)) = true := by
  refine ⟨?_, ?_, ?_⟩
  · rfl
  · simp +decide [revise_sections, _apply_customer_constraints, _revise_section,
      CustomerConfig.validate_sections, CustomerConfig.apply_terminology,
      reSubWordCI, reSubAux, needs_evidence_step, keptBullet,
      GroundedSection.add_open_question, validate_grounded_report, validate_step]
  · simp +decide [revise_sections, _apply_customer_constraints, _revise_section,
      CustomerConfig.validate_sections, CustomerConfig.apply_terminology,
      reSubWordCI, reSubAux, needs_evidence_step, keptBullet,
      GroundedSection.add_open_question, validate_grounded_report, validate_step,
      lowerS, lowerCh, substrB, prefixB]

/-- C3 (amended): the required-section placeholder step is performed by the
content analyzer's constraint pass before revision, not by the revision pass;
for every required name B matching no discovered section name
(case-insensitive substring containment), the constraint pass appends a
placeholder section named B with zero bullets and one open question, and —
when the terminology map is empty — the subsequent revision pass preserves
it, so the final list contains it verbatim. -/
theorem c3_required_section_coverage (sections : List GroundedSection)
    (cfg : CustomerConfig) (ev : EvidenceCollection) (B : String)
    (hB : B ∈ cfg.must_include)
    (hmiss : ∀ s ∈ sections, substrB (lowerS B).data (lowerS s.name).data = false)
    (hterm : cfg.terminology_map = []) :
    (⟨B, "Section for " ++ B, [], [], ["No evidence found for " ++ B], false⟩ :
        GroundedSection)
      ∈ (revise_sections (_apply_customer_constraints sections cfg ev) ev (some cfg)).1 := by
  rw [revise_sections_fst, constraints_empty_map sections cfg ev hterm, List.map_append]
  refine List.mem_append.mpr (Or.inr ?_)
  rw [List.map_map]
  refine List.mem_map.mpr ⟨B, ?_, ?_⟩
  · refine mem_validate_sections cfg (sections.map (·.name)) B hB ?_
    intro nm hnm
    simp only [List.mem_map] at hnm
    obtain ⟨s, hs, rfl⟩ := hnm
    exact hmiss s hs
  · show (_revise_section _ ev (some cfg)).1 = _
    exact revise_placeholder ev cfg hterm B

/-- Witness for required-section coverage at a concrete run: the placeholder
for "Executive Summary" survives into the final section list. -/
theorem c3_required_section_coverage_witness :
    (⟨"Executive Summary", "Section for Executive Summary", [], [],
        ["No evidence found for Executive Summary"], false⟩ : GroundedSection)
      ∈ (revise_sections
          (_apply_customer_constraints [⟨"Intro", "", [], [], [], true⟩]
            ⟨"C", ["Executive Summary"], [], [], []⟩ ⟨[], "", "", 0⟩)
          ⟨[], "", "", 0⟩
          (some ⟨"C", ["Executive Summary"], [], [], []⟩)).1 :=
  c3_required_section_coverage [⟨"Intro", "", [], [], [], true⟩]
    ⟨"C", ["Executive Summary"], [], [], []⟩ ⟨[], "", "", 0⟩ "Executive Summary"
    (by decide) (by decide) rfl

/-! ### Extraction lemmas (C6) -/

theorem splitNL_no_nl (l : List Char) (h : '\n' ∉ l) : splitNL l = [l] := by
  induction l with
  | nil => rfl
  | cons c cs ih =>
    have hc : ¬(c = '\n') := fun hc => h (hc ▸ List.mem_cons_self c cs)
    have hcs : '\n' ∉ cs := fun hm => h (List.mem_cons_of_mem c hm)
    simp only [splitNL, if_neg hc, ih hcs]

theorem splitNL_append_nl (l rest : List Char) (h : '\n' ∉ l) :
    splitNL (l ++ '\n' :: rest) = l :: splitNL rest := by
  induction l with
  | nil => simp [splitNL]
  | cons c cs ih =>
    have hc : ¬(c = '\n') := fun hc => h (hc ▸ List.mem_cons_self c cs)
    have hcs : '\n' ∉ cs := fun hm => h (List.mem_cons_of_mem c hm)
    simp only [List.cons_append, splitNL, if_neg hc, List.append_eq, ih hcs]

theorem splitNL_joinNL : ∀ (ls : List (List Char)), ls ≠ [] →
    (∀ l ∈ ls, '\n' ∉ l) → splitNL (joinNL ls) = ls := by
  intro ls
  induction ls with
  | nil => intro h _; exact absurd rfl h
  | cons l ls' ih =>
    intro _ hnl
    cases ls' with
    | nil =>
      show splitNL (joinNL [l]) = [l]
      rw [joinNL]
      exact splitNL_no_nl l (hnl l (List.mem_cons_self l []))
    | cons l2 ls'' =>
      show splitNL (joinNL (l :: l2 :: ls'')) = l :: l2 :: ls''
      rw [show joinNL (l :: l2 :: ls'') = l ++ '\n' :: joinNL (l2 :: ls'') from rfl]
      rw [splitNL_append_nl l (joinNL (l2 :: ls'')) (hnl l (List.mem_cons_self _ _))]
      rw [ih (by simp) (fun x hx => hnl x (List.mem_cons_of_mem l hx))]

theorem stripChars_eq_self (l : List Char)
    (h1 : ∀ d, l.head? = some d → isSpaceCh d = false)
    (h2 : ∀ d, l.getLast? = some d → isSpaceCh d = false) :
    stripChars l = l := by
  unfold stripChars
  rw [dropWhile_self_of_head h1]
  have hrev : ∀ d, l.reverse.head? = some d → isSpaceCh d = false := by
    intro d hd
    rw [List.head?_reverse] at hd
    exact h2 d hd
  rw [dropWhile_self_of_head hrev, List.reverse_reverse]

theorem extract_step_heading (h' : String → String) (pt pid pu : String)
    (path : List String) (coll : EvidenceCollection) :
    extract_step h' pt pid pu (path, coll) "# Acme Platform"
      = (["Acme Platform"],
          EvidenceCollection.add h' coll
            (mkEvidenceItem h' "" pt pid pu ["Acme Platform"]
              "Acme Platform" "Acme Platform" "heading" 0)) := by
  rfl

theorem extract_step_bullet (h' : String → String) (pt pid pu : String)
    (path : List String) (coll : EvidenceCollection) (t : String)
    (ht5 : 5 ≤ t.data.length)
    (hth : ∀ d, t.data.head? = some d → isSpaceCh d = false)
    (htl : ∀ d, t.data.getLast? = some d → isSpaceCh d = false) :
    extract_step h' pt pid pu (path, coll) ⟨'-' :: ' ' :: t.data⟩
      = (path,
          EvidenceCollection.add h' coll
            (mkEvidenceItem h' "" pt pid pu path t t "bullet" 0)) := by
  obtain ⟨c, rest, hdata⟩ : ∃ c rest, t.data = c :: rest := by
    cases hd : t.data with
    | nil => rw [hd] at ht5; simp at ht5
    | cons c rest => exact ⟨c, rest, rfl⟩
  have hline : stripS ⟨'-' :: ' ' :: t.data⟩ = ⟨'-' :: ' ' :: t.data⟩ := by
    show (⟨stripChars ('-' :: ' ' :: t.data)⟩ : String) = _
    rw [stripChars_eq_self]
    · intro d hd
      simp only [List.head?_cons, Option.some.injEq] at hd
      rw [← hd]
      rfl
    · intro d hd
      rw [hdata, List.getLast?_cons_cons, List.getLast?_cons_cons] at hd
      refine htl d ?_
      rw [hdata]
      exact hd
  have hstript : stripS t = t := by
    show (⟨stripChars t.data⟩ : String) = t
    rw [stripChars_eq_self t.data hth htl]
  unfold extract_step
  rw [hline]
  have hne : (⟨'-' :: ' ' :: t.data⟩ : String) ≠ "" := by
    intro hh
    have : ('-' :: ' ' :: t.data) = "".data := congrArg String.data hh
    simp at this
  rw [if_neg hne]
  have hsc : stripChars t.data = t.data := stripChars_eq_self t.data hth htl
  simp +decide [startsS, dropS, stripS, prefixB, hsc]
  intro hlen
  have hlen' : t.length = t.data.length := rfl
  omega

theorem extract_fold_bullets (h' : String → String) (pt pid pu : String) :
    ∀ (ts : List String) (path : List String) (coll : EvidenceCollection),
      (∀ t ∈ ts, 5 ≤ t.data.length
        ∧ (∀ d, t.data.head? = some d → isSpaceCh d = false)
        ∧ (∀ d, t.data.getLast? = some d → isSpaceCh d = false)) →
      (ts.map (fun t => (⟨'-' :: ' ' :: t.data⟩ : String))).foldl
          (extract_step h' pt pid pu) (path, coll)
        = (path, ts.foldl
            (fun c t => EvidenceCollection.add h' c
              (mkEvidenceItem h' "" pt pid pu path t t "bullet" 0)) coll) := by
  intro ts
  induction ts with
  | nil => intro path coll _; rfl
  | cons t ts' ih =>
    intro path coll hts
    obtain ⟨h5, hh, hl⟩ := hts t (List.mem_cons_self t ts')
    simp only [List.map_cons, List.foldl_cons]
    rw [extract_step_bullet h' pt pid pu path coll t h5 hh hl]
    exact ih path _ (fun x hx => hts x (List.mem_cons_of_mem t hx))

theorem upsert_not_mem {α : Type} (l : List (String × α)) (k : String) (v : α)
    (h : k ∉ l.map Prod.fst) : upsert l k v = l ++ [(k, v)] := by
  induction l with
  | nil => rfl
  | cons p r ih =>
    simp only [List.map_cons, List.mem_cons] at h
    push_neg at h
    simp only [upsert]
    rw [if_neg (fun he => h.1 he.symm)]
    rw [ih h.2]
    simp

theorem mkEvidenceItem_id (h' : String → String) (pt pid pu : String)
    (path : List String) (t bt : String) (n : Nat) (ht : t ≠ "") :
    (mkEvidenceItem h' "" pt pid pu path t t bt n)
      = ⟨genId h' pid t, pt, pid, pu, path, t, t, bt, n⟩ := by
  unfold mkEvidenceItem
  simp [ht]

theorem addAll_items (h' : String → String) (pt pid pu : String) (path : List String) :
    ∀ (ts : List String) (coll : EvidenceCollection),
      (∀ t ∈ ts, t ≠ "") →
      (coll.items.map Prod.fst ++ ts.map (fun t => genId h' pid t)).Nodup →
      (ts.foldl (fun c t => EvidenceCollection.add h' c
          (mkEvidenceItem h' "" pt pid pu path t t "bullet" 0)) coll).items
        = coll.items ++ ts.map
            (fun t => (genId h' pid t,
              (⟨genId h' pid t, pt, pid, pu, path, t, t, "bullet", 0⟩ : EvidenceItem))) := by
  intro ts
  induction ts with
  | nil => intro coll _ _; simp
  | cons t ts' ih =>
    intro coll hne hnd
    simp only [List.foldl_cons]
    have ht : t ≠ "" := hne t (List.mem_cons_self t ts')
    have hstep : (EvidenceCollection.add h' coll
        (mkEvidenceItem h' "" pt pid pu path t t "bullet" 0)).items
        = coll.items ++ [(genId h' pid t,
            (⟨genId h' pid t, pt, pid, pu, path, t, t, "bullet", 0⟩ : EvidenceItem))] := by
      rw [mkEvidenceItem_id h' pt pid pu path t "bullet" 0 ht]
      unfold EvidenceCollection.add
      simp only []
      rw [if_neg ?_]
      · show upsert coll.items (genId h' pid t) _ = _
        refine upsert_not_mem coll.items (genId h' pid t) _ ?_
        simp only [List.map_cons, List.nodup_append] at hnd
        intro hmem
        exact hnd.2.2 hmem (List.mem_cons_self _ _)
      · show ¬((⟨genId h' pid t, pt, pid, pu, path, t, t, "bullet", 0⟩ :
          EvidenceItem).id = "")
        exact genId_ne_empty h' pid t
    rw [ih (EvidenceCollection.add h' coll
        (mkEvidenceItem h' "" pt pid pu path t t "bullet" 0))
      (fun x hx => hne x (List.mem_cons_of_mem t hx)) ?nd]
    case nd =>
      rw [hstep]
      simp only [List.map_append, List.map_cons, List.map_nil]
      have : coll.items.map Prod.fst ++ [genId h' pid t] ++ ts'.map (fun x => genId h' pid x)
          = coll.items.map Prod.fst ++ genId h' pid t :: ts'.map (fun x => genId h' pid x) := by
        simp
      rw [show (List.map Prod.fst (coll.items) ++ [(genId h' pid t)])
          = List.map Prod.fst coll.items ++ [genId h' pid t] from rfl] at this
      rw [List.append_assoc]
      simpa using hnd
    rw [hstep]
    simp

theorem prefixB_append (a b : List Char) : prefixB a (a ++ b) = true := by
  induction a with
  | nil => rfl
  | cons c cs ih => simp [prefixB, ih]

theorem startsS_genId (h' : String → String) (pid q : String) :
    startsS "EVID-" (genId h' pid q) = true := by
  unfold startsS genId
  rw [String.data_append]
  exact prefixB_append _ _

/-- C6 counterexample: a raw text consisting of the heading "# Acme Platform"
followed by 10 bullet lines of at least 5 characters yields an
EvidenceCollection of 11 items, not 10 — the heading line itself (13
characters) is also extracted as an evidence item.  (The hash is instantiated
with the identity function; the ids of the 11 distinct extraction units are
distinct.) -/
theorem c6_extraction_counterexample :
    (extract_evidence_from_content (fun s => s)
      "# Acme Platform\n- b0 alpha\n- b1 alpha\n- b2 alpha\n- b3 alpha\n- b4 alpha\n- b5 alpha\n- b6 alpha\n- b7 alpha\n- b8 alpha\n- b9 alpha"
      "" "" "").items.length = 11
    ∧ (11 : Nat) ≠ 10 := by
  constructor
  · decide
  · decide

/-- C6 (amended): for every raw text consisting of the heading line
"# Acme Platform" followed by 10 bullet lines "- <text>" whose texts are at
least 5 characters, contain no newline and no leading or trailing
whitespace, and whose 11 generated ids (heading included) are pairwise
distinct, `extract_evidence_from_content` returns a collection of exactly 11
items — one for the heading plus one per bullet — in which every item's id
starts with "EVID-" and every item's heading path is ["Acme Platform"]. -/
theorem optAll_space {o : Option Char} (h : o.all (fun d => !isSpaceCh d) = true) :
    ∀ d, o = some d → isSpaceCh d = false := by
  intro d hd
  subst hd
  simpa using h

theorem c6_extraction_shape (h' : String → String) (pt pid pu : String)
    (ts : List String) (hlen : ts.length = 10)
    (hts : ∀ t ∈ ts, 5 ≤ t.data.length
      ∧ t.data.head?.all (fun d => !isSpaceCh d) = true
      ∧ t.data.getLast?.all (fun d => !isSpaceCh d) = true
      ∧ '\n' ∉ t.data)
    (hids : (genId h' pid "Acme Platform" :: ts.map (fun t => genId h' pid t)).Nodup) :
    (extract_evidence_from_content h'
        ⟨joinNL ("# Acme Platform".data :: ts.map (fun t => '-' :: ' ' :: t.data))⟩
        pt pid pu).items.length = 11
    ∧ ∀ pr ∈ (extract_evidence_from_content h'
        ⟨joinNL ("# Acme Platform".data :: ts.map (fun t => '-' :: ' ' :: t.data))⟩
        pt pid pu).items,
        startsS "EVID-" pr.2.id = true ∧ pr.2.block_path = ["Acme Platform"] := by
  have hsplit : splitNL (joinNL ("# Acme Platform".data
      :: ts.map (fun t => '-' :: ' ' :: t.data)))
      = "# Acme Platform".data :: ts.map (fun t => '-' :: ' ' :: t.data) := by
    refine splitNL_joinNL _ (by simp) ?_
    intro l hl
    rcases List.mem_cons.mp hl with rfl | hl
    · decide
    · simp only [List.mem_map] at hl
      obtain ⟨t, ht, rfl⟩ := hl
      have hnl := (hts t ht).2.2.2
      intro hmem
      rcases List.mem_cons.mp hmem with he | hmem
      · exact absurd he (by decide)
      · rcases List.mem_cons.mp hmem with he | hmem
        · exact absurd he (by decide)
        · exact hnl hmem
  have hitems : (extract_evidence_from_content h'
      ⟨joinNL ("# Acme Platform".data :: ts.map (fun t => '-' :: ' ' :: t.data))⟩
      pt pid pu).items
      = (genId h' pid "Acme Platform",
          (⟨genId h' pid "Acme Platform", pt, pid, pu, ["Acme Platform"],
            "Acme Platform", "Acme Platform", "heading", 0⟩ : EvidenceItem))
        :: ts.map (fun t => (genId h' pid t,
            (⟨genId h' pid t, pt, pid, pu, ["Acme Platform"], t, t, "bullet", 0⟩ :
              EvidenceItem))) := by
    unfold extract_evidence_from_content
    rw [show (⟨joinNL ("# Acme Platform".data
        :: ts.map (fun t => '-' :: ' ' :: t.data))⟩ : String).data
      = joinNL ("# Acme Platform".data :: ts.map (fun t => '-' :: ' ' :: t.data)) from rfl]
    rw [hsplit]
    simp only [List.map_cons, List.map_map, List.foldl_cons]
    rw [show ((⟨"# Acme Platform".data⟩ : String)) = "# Acme Platform" from rfl]
    rw [extract_step_heading h' pt pid pu [] ⟨[], pu, pt, 0⟩]
    have hcoll1 : (EvidenceCollection.add h' ⟨[], pu, pt, 0⟩
        (mkEvidenceItem h' "" pt pid pu ["Acme Platform"]
          "Acme Platform" "Acme Platform" "heading" 0)).items
        = [(genId h' pid "Acme Platform",
            (⟨genId h' pid "Acme Platform", pt, pid, pu, ["Acme Platform"],
              "Acme Platform", "Acme Platform", "heading", 0⟩ : EvidenceItem))] := by
      rw [mkEvidenceItem_id h' pt pid pu ["Acme Platform"] "Acme Platform" "heading" 0
        (by decide)]
      unfold EvidenceCollection.add
      simp only []
      rw [if_neg (genId_ne_empty h' pid "Acme Platform")]
      rfl
    rw [show ((fun l => (⟨l⟩ : String)) ∘ fun (t : String) => '-' :: ' ' :: t.data)
        = (fun t : String => (⟨'-' :: ' ' :: t.data⟩ : String)) from rfl]
    rw [extract_fold_bullets h' pt pid pu ts ["Acme Platform"] _
      (fun t ht => ⟨(hts t ht).1, optAll_space (hts t ht).2.1,
        optAll_space (hts t ht).2.2.1⟩)]
    simp only []
    rw [addAll_items h' pt pid pu ["Acme Platform"] ts _
      (fun t ht => by
        have h5 := (hts t ht).1
        intro he
        rw [he] at h5
        simp at h5)
      (by rw [hcoll1]; simpa using hids)]
    rw [hcoll1]
    simp
  constructor
  · rw [hitems]
    simp [hlen]
  · intro pr hpr
    rw [hitems] at hpr
    rcases List.mem_cons.mp hpr with rfl | hpr
    · exact ⟨startsS_genId h' pid "Acme Platform", rfl⟩
    · simp only [List.mem_map] at hpr
      obtain ⟨t, _, rfl⟩ := hpr
      exact ⟨startsS_genId h' pid t, rfl⟩

/-- Witness for the extraction-shape theorem at ten concrete bullet texts
and the identity hash: 11 items, and the heading item carries the
"EVID-"-prefixed id and the heading path. -/
theorem c6_extraction_shape_witness :
    (extract_evidence_from_content (fun s => s)
        ⟨joinNL ("# Acme Platform".data
          :: (["b0 alpha", "b1 alpha", "b2 alpha", "b3 alpha", "b4 alpha",
              "b5 alpha", "b6 alpha", "b7 alpha", "b8 alpha", "b9 alpha"].map
            (fun t => '-' :: ' ' :: t.data)))⟩
        "" "" "").items.length = 11
    ∧ (startsS "EVID-"
        (genId (fun s => s) "" "Acme Platform") = true) := by
  constructor
  · exact (c6_extraction_shape (fun s => s) "" "" ""
      ["b0 alpha", "b1 alpha", "b2 alpha", "b3 alpha", "b4 alpha",
       "b5 alpha", "b6 alpha", "b7 alpha", "b8 alpha", "b9 alpha"]
      rfl (by decide) (by decide)).1
  · have h := (c6_extraction_shape (fun s => s) "" "" ""
      ["b0 alpha", "b1 alpha", "b2 alpha", "b3 alpha", "b4 alpha",
       "b5 alpha", "b6 alpha", "b7 alpha", "b8 alpha", "b9 alpha"]
      rfl (by decide) (by decide)).2
      (genId (fun s => s) "" "Acme Platform",
        ⟨genId (fun s => s) "" "Acme Platform", "", "", "", ["Acme Platform"],
          "Acme Platform", "Acme Platform", "heading", 0⟩)
      (by decide)
    exact h.1
